import Mathlib

/-!
Shallow embedding of the phonebook repository (src/phonebook) and proofs of
the spec claims.

Modelling conventions:
* Python dicts are embedded as association lists in insertion order
  (`List (String × β)`); Python dict lookup is first-match lookup, and dict
  keys are unique by construction wherever the code builds them.
* Python `list.sort` / `sorted` (a stable sort) is embedded as the stable
  insertion sort `pySort`, proved equal to `List.mergeSort`.  Python string
  comparison is embedded as code-point lexicographic order (`pyStrLe`).
* Python string operations are embedded over `String`; `len` is the number
  of code points, matching `String.length`.  `\s` / `str.strip` whitespace
  and `\d` / `str.isdigit` digits are embedded at their ASCII meaning.
* File contents are embedded structurally: the phonebook XML is a list of
  menus, each a display name plus a list of units; XML attribute values
  round-trip verbatim.
-/

deriving instance DecidableEq for Except

namespace Phonebook

/-- Whitespace as matched by Python's `\s` and stripped by `str.strip`
(ASCII part). -/
def pyIsSpace (c : Char) : Bool :=
  c = ' ' || c = '\t' || c = '\n' || c = '\r' || c = '\x0b' || c = '\x0c'

/-- Python `str.strip()` on a character list. -/
def pyStripList (l : List Char) : List Char :=
  ((l.dropWhile pyIsSpace).reverse.dropWhile pyIsSpace).reverse

/-- Python `str.strip()`. -/
def pyStrip (s : String) : String := String.mk (pyStripList s.data)

/-- First-match association-list lookup: Python `k in d` / `d[k]` combined. -/
def dictLookup {β : Type} (m : List (String × β)) (k : String) : Option β :=
  match m with
  | [] => none
  | p :: rest => if p.1 = k then some p.2 else dictLookup rest k

/-- Lexicographic (code-point) strict comparison of character lists:
Python's `<` on strings. -/
def ltCharList : List Char → List Char → Bool
  | [], [] => false
  | [], _ :: _ => true
  | _ :: _, [] => false
  | a :: as, b :: bs => if a = b then ltCharList as bs else decide (a < b)

/-- Python's `<` on strings. -/
def pyStrLt (a b : String) : Bool := ltCharList a.data b.data

/-- Python's `<=` on strings. -/
def pyStrLe (a b : String) : Bool := pyStrLt a b || a == b

/-- Comparison for `ordered_pairs.sort(key=lambda x: (x[1], x[0]))`:
lexicographic on (rank, name). -/
def le1 (p q : String × Int) : Bool :=
  decide (p.2 < q.2) || (decide (p.2 = q.2) && pyStrLe p.1 q.1)

/-- Comparison for `ordered_pairs.sort(key=lambda x: x[1])`: by rank only. -/
def le2 (p q : String × Int) : Bool := decide (p.2 ≤ q.2)

/-- Comparison for `sorted(missing)`: plain string order. -/
def leName (a b : String) : Bool := pyStrLe a b

/-- `list.insert`-style stable insertion: keeps `a` after every already
placed element `b` with `le b a`... `a` is inserted before the first
element `b` with `le a b = true`. -/
def orderedInsertB {α : Type} (le : α → α → Bool) (a : α) : List α → List α
  | [] => [a]
  | b :: l => if le a b then a :: b :: l else b :: orderedInsertB le a l

/-- Python's `list.sort` / `sorted` is a stable sort; it is embedded as a
stable insertion sort (structurally recursive, so concrete instances
compute), proved below to coincide with `List.mergeSort`. -/
def pySort {α : Type} (le : α → α → Bool) : List α → List α
  | [] => []
  | a :: l => orderedInsertB le a (pySort le l)

/-- Python `max(vals, default=0)`. -/
def maxValDefault : List Int → Int
  | [] => 0
  | v :: rest => rest.foldl max v

/-- The append loop `for name in sorted(missing): max_value += 1; append`. -/
def rankFrom (m : Int) : List String → List (String × Int)
  | [] => []
  | n :: rest => (n, m + 1) :: rankFrom (m + 1) rest

/-- The final `{name: idx for idx, (name, _) in enumerate(pairs, start=1)}`,
with an explicit starting index. -/
def reindexFrom (i : Int) : List (String × Int) → List (String × Int)
  | [] => []
  | p :: rest => (p.1, i) :: reindexFrom (i + 1) rest

/-- `repository._normalize_order_map`: the pure order reconciler. -/
def _normalize_order_map (order_map : List (String × Int)) (group_names : List String) :
    List (String × Int) :=
  let ordered_pairs := group_names.filterMap
    (fun n => (dictLookup order_map n).map (fun v => (n, v)))
  let sorted1 := pySort le1 ordered_pairs
  let max_value := maxValDefault (sorted1.map Prod.snd)
  let missing := group_names.filter (fun n => (dictLookup order_map n).isNone)
  let appended := sorted1 ++ rankFrom max_value (pySort leName missing)
  reindexFrom 1 (pySort le2 appended)

/-- The integer sequence i, i+1, ..., i+n-1, used to state rank
denseness. -/
def intsFrom (i : Int) : Nat → List Int
  | 0 => []
  | n + 1 => i :: intsFrom (i + 1) n

/-- The `ordered_pairs` list of `_normalize_order_map` (spec: groups
present in both the map and the current set, with their existing ranks). -/
def knownPairs (order_map : List (String × Int)) (group_names : List String) :
    List (String × Int) :=
  group_names.filterMap (fun n => (dictLookup order_map n).map (fun v => (n, v)))

/-- The `missing` list of `_normalize_order_map` (spec: groups in the
current set absent from the map). -/
def missingNames (order_map : List (String × Int)) (group_names : List String) :
    List String :=
  group_names.filter (fun n => (dictLookup order_map n).isNone)

/-- The list whose re-enumeration is the reconciler result: sorted known
pairs followed by name-sorted fresh groups with ranks above the old
maximum. -/
def appendedList (M : List (String × Int)) (G : List String) : List (String × Int) :=
  (pySort le1 (knownPairs M G)) ++
    rankFrom (maxValDefault ((pySort le1 (knownPairs M G)).map Prod.snd))
      (pySort leName (missingNames M G))

/-- A group name that survives the save prefix / load strip round trip: no
leading or trailing whitespace and no newline (see
`_split_prefixed_group`). -/
def cleanGroupName (g : String) : Bool :=
  decide (g.data.dropWhile pyIsSpace = g.data) &&
    decide (g.data.reverse.dropWhile pyIsSpace = g.data.reverse) &&
    !(g.data.contains '\n')

/-! Data model (`models.py`). -/

def MAX_GROUPS : Nat := 50

def MAX_NAME_LENGTH : Nat := 99

def MAX_PHONE_LENGTH : Nat := 32

/-- `models.Contact`. -/
structure Contact where
  group : String
  name : String
  office : String := ""
  mobile : String := ""
  other : String := ""
  photo : String := ""
  contact_id : Option Nat := none
deriving DecidableEq, Repr

/-- One `Unit` element of the phonebook XML, attributes as written by
`save_contacts`. -/
structure PhoneUnit where
  name : String
  default_photo : String
  phone1 : String
  phone2 : String
  phone3 : String
deriving DecidableEq, Repr

/-- One `Menu` element of the phonebook XML. -/
structure Menu where
  name : String
  units : List PhoneUnit
deriving DecidableEq, Repr

/-- `repository._validate_lengths` (the `for number in [office, mobile,
other]` loop unrolled in order). -/
def _validate_lengths (c : Contact) : Except String Unit :=
  if c.group.length = 0 then .error "Группа обязательна"
  else if c.group.length > MAX_NAME_LENGTH then .error "Название группы слишком длинное (макс 99)"
  else if c.name.length = 0 then .error "Имя обязательно"
  else if c.name.length > MAX_NAME_LENGTH then .error "Имя слишком длинное (макс 99)"
  else if c.office.length > MAX_PHONE_LENGTH then .error "Номер слишком длинный (макс 32)"
  else if c.mobile.length > MAX_PHONE_LENGTH then .error "Номер слишком длинный (макс 32)"
  else if c.other.length > MAX_PHONE_LENGTH then .error "Номер слишком длинный (макс 32)"
  else if c.photo.length > MAX_NAME_LENGTH then .error "Путь к фото слишком длинный (макс 99)"
  else .ok ()

/-- Insertion-ordered dict update: `groups[k].append(c)`, creating
`groups[k] = []` first when the key is new (new keys go to the end, as in
a Python dict). -/
def addToGroup (gs : List (String × List Contact)) (k : String) (c : Contact) :
    List (String × List Contact) :=
  match gs with
  | [] => [(k, [c])]
  | p :: rest => if p.1 = k then (p.1, p.2 ++ [c]) :: rest else p :: addToGroup rest k c

/-- The first loop of `save_contacts`: validate each contact, bucket by
group, enforce the group cap when a new group appears. -/
def bucketGroups : List Contact → List (String × List Contact) →
    Except String (List (String × List Contact))
  | [], acc => .ok acc
  | c :: rest, acc =>
    match _validate_lengths c with
    | .error e => .error e
    | .ok _ =>
      if (dictLookup acc c.group).isSome then bucketGroups rest (addToGroup acc c.group c)
      else if acc.length ≥ MAX_GROUPS then .error "Превышено число групп (50)"
      else bucketGroups rest (addToGroup acc c.group c)

/-- The `preserved_groups` loop of `save_contacts`. -/
def addPreserved : List (String × List Contact) → List String →
    Except String (List (String × List Contact))
  | gs, [] => .ok gs
  | gs, g :: rest =>
    if (dictLookup gs g).isSome then addPreserved gs rest
    else if gs.length ≥ MAX_GROUPS then .error "Превышено число групп (50)"
    else addPreserved (gs ++ [(g, [])]) rest

/-- `order_map.get(n, 10**6)`. -/
def rankDefault (om : List (String × Int)) (n : String) : Int :=
  (dictLookup om n).getD 1000000

/-- Comparison for `sorted(group_names, key=lambda n: (order_map.get(n,
10**6), n))`. -/
def leRank (om : List (String × Int)) (a b : String) : Bool :=
  decide (rankDefault om a < rankDefault om b) ||
    (decide (rankDefault om a = rankDefault om b) && pyStrLe a b)

/-- The group heading `f"{idx:02d}. "`.  `save_contacts` only passes
indices 1..50 (group cap), for which `02d` zero-pads to exactly two
digits. -/
def twoDigitTag (i : Nat) : String :=
  String.mk [Nat.digitChar (i / 10), Nat.digitChar (i % 10), '.', ' ']

/-- One XML `Unit` as written by `save_contacts`. -/
def contactToUnit (c : Contact) : PhoneUnit :=
  { name := c.name, default_photo := c.photo,
    phone1 := c.office, phone2 := c.mobile, phone3 := c.other }

/-- The menu-writing loop of `save_contacts` (`enumerate(ordered_names,
start=1)`). -/
def mkMenus (gs : List (String × List Contact)) : List String → Nat → List Menu
  | [], _ => []
  | n :: rest, idx =>
    { name := twoDigitTag idx ++ n,
      units := ((dictLookup gs n).getD []).map contactToUnit } :: mkMenus gs rest (idx + 1)

/-- The write stage of `save_contacts`, after validation and bucketing
succeeded: reconcile the order map, save it unless empty, and write menus
in rank order with two-digit prefixes. -/
def saveWithBuckets (order_file : List (String × Int))
    (gs : List (String × List Contact)) : List Menu × List (String × Int) :=
  let group_names := gs.map Prod.fst
  let order_map := _normalize_order_map order_file group_names
  let new_order_file := if order_map = [] then order_file else order_map
  let ordered_names := pySort (leRank order_map) group_names
  (mkMenus gs ordered_names 1, new_order_file)

/-- `repository.save_contacts`, as a pure function from the current
group-order file to the new phonebook XML and group-order file; a
`ValidationError` aborts before anything is produced. -/
def save_contacts (order_file : List (String × Int)) (contacts : List Contact)
    (preserved_groups : Option (List String)) :
    Except String (List Menu × List (String × Int)) := do
  let gs ← bucketGroups contacts []
  let gs ← match preserved_groups with
    | some ps => addPreserved gs ps
    | none => pure gs
  .ok (saveWithBuckets order_file gs)

/-- The durable state the Directory Store owns: the phonebook XML and the
group-order side file. -/
structure Store where
  phonebook : List Menu
  group_order : List (String × Int)
deriving DecidableEq, Repr

/-- `save_contacts` acting on the durable state: on error nothing is
written and the previous state is kept. -/
def saveContactsStore (st : Store) (contacts : List Contact)
    (preserved : Option (List String)) : Store × Option String :=
  match save_contacts st.group_order contacts preserved with
  | .ok (menus, om) => ({ phonebook := menus, group_order := om }, none)
  | .error e => (st, some e)

/-! Loading (`repository.load_contacts` and `_split_prefixed_group`). -/

def digitVal (c : Char) : Nat := c.toNat - '0'.toNat

/-- Whether `\s+(.*)$` matches the remainder after `^\s*(\d{2})\.`: at
least one whitespace character must follow, and (because `.` does not
match a newline and `$` only matches at the end or before a final
newline) the text after the whitespace may contain a newline only as its
final character. -/
def tailAfterDot (rest : List Char) : Bool :=
  match rest with
  | [] => false
  | c :: _ => pyIsSpace c && !(((rest.dropWhile pyIsSpace).dropLast).contains '\n')

/-- `repository._split_prefixed_group`: `re.match(r"^\s*(\d{2})\.\s+(.*)$",
name)`, returning `(match.group(2).strip(), int(match.group(1)))` on a
match and `(name, None)` otherwise. -/
def _split_prefixed_group (name : String) : String × Option Nat :=
  match name.data.dropWhile pyIsSpace with
  | d1 :: d2 :: c :: rest =>
    if d1.isDigit && d2.isDigit && c = '.' && tailAfterDot rest then
      (String.mk (pyStripList rest), some (10 * digitVal d1 + digitVal d2))
    else (name, none)
  | _ => (name, none)

/-- The inner `Unit` loop of `load_contacts` with its running `cid`. -/
def unitsWith (g : String) : List PhoneUnit → Nat → List Contact
  | [], _ => []
  | u :: us, cid =>
    { group := g, name := u.name, office := u.phone1, mobile := u.phone2,
      other := u.phone3, photo := u.default_photo, contact_id := some cid } ::
      unitsWith g us (cid + 1)

/-- The `Menu` loop of `load_contacts`. -/
def loadUnits : List Menu → Nat → List Contact
  | [], _ => []
  | m :: ms, cid =>
    unitsWith (_split_prefixed_group m.name).1 m.units cid ++
      loadUnits ms (cid + m.units.length)

/-- The contact-reading part of `repository.load_contacts`: walks menus in
file order and assigns ids by overall encounter order starting at 0. -/
def load_contacts (menus : List Menu) : List Contact := loadUnits menus 0

/-- The `derived_order` dict of `load_contacts`: `setdefault(group_name,
prefixed_order or position)` over menus enumerated from 1 (note Python
`or`: a prefix of value 0 falls back to the position). -/
def derivedOrderAux : List Menu → Nat → List (String × Int) → List (String × Int)
  | [], _, acc => acc
  | m :: ms, pos, acc =>
    let gp := _split_prefixed_group m.name
    let v : Int := match gp.2 with
      | some p => if p = 0 then (pos : Int) else (p : Int)
      | none => (pos : Int)
    let acc2 := if (dictLookup acc gp.1).isSome then acc else acc ++ [(gp.1, v)]
    derivedOrderAux ms (pos + 1) acc2

/-- The derived group order of a parsed phonebook file. -/
def derivedOrderOf (menus : List Menu) : List (String × Int) :=
  derivedOrderAux menus 1 []

/-- The group-order side effect of `repository.load_contacts`: the new
content of the group-order file, given its previous content and the order
derived from the parsed file (when no save happens the file keeps its
previous content). -/
def loadOrderUpdate (existing derived : List (String × Int)) : List (String × Int) :=
  if existing = [] then
    if derived = [] then existing
    else
      let normalized := _normalize_order_map derived (derived.map Prod.fst)
      if normalized = [] then existing else normalized
  else
    let missing := (derived.map Prod.fst).filter (fun n => (dictLookup existing n).isNone)
    if missing = [] then existing
    else
      let merged := existing ++ missing.map (fun n => (n, (dictLookup derived n).getD 0))
      _normalize_order_map merged (merged.map Prod.fst)

/-! Contact mutations (`update_contact`, `delete_contact`). -/

/-- The replace-first-matching-id loop of `update_contact`. -/
def updateLoop : List Contact → Nat → Contact → Option (List Contact)
  | [], _, _ => none
  | c :: rest, cid, upd =>
    if c.contact_id = some cid then some ({ upd with contact_id := some cid } :: rest)
    else (updateLoop rest cid upd).map (fun l => c :: l)

/-- `repository.update_contact` on an already-loaded snapshot: the contact
list handed to `save_contacts`, or the NotFound error. -/
def update_contact (snapshot : List Contact) (contact_id : Nat) (updated : Contact) :
    Except String (List Contact) :=
  match updateLoop snapshot contact_id updated with
  | some l => .ok l
  | none => .error "Контакт не найден"

/-- `repository.delete_contact` on a loaded snapshot: since
`REMOVE_EMPTY_GROUPS = True` the preserved-groups argument is `None`; the
id is only used to filter, with no NotFound check. -/
def delete_contact (order_file : List (String × Int)) (snapshot : List Contact)
    (contact_id : Nat) : Except String (List Menu × List (String × Int)) :=
  save_contacts order_file
    (snapshot.filter (fun c => decide (c.contact_id ≠ some contact_id))) none

/-! Spreadsheet import (`excel_io.py`). -/

/-- `excel_io.RawContact` (`raw_row_data` holds auxiliary row fields; the
source also stores the numeric `row_index` there, embedded here as its
decimal string — no embedded operation reads it). -/
structure RawContact where
  full_department_name : String
  full_name : String
  raw_row_data : List (String × String) := []
  internal_extension : Option String := none
deriving DecidableEq, Repr

/-- `_cleanup_digits`: `re.sub(r"\D", "", text)`. -/
def cleanupDigits (s : String) : List Char := s.data.filter Char.isDigit

/-- The character class of `re.findall(r"[\d\s\+\-\(\)]+", value)`. -/
def phoneRunChar (c : Char) : Bool :=
  c.isDigit || pyIsSpace c || c = '+' || c = '-' || c = '(' || c = ')'

/-- Single pass collecting maximal runs of characters satisfying `p`;
`cur` is the reversed run in progress, emitted when it ends. -/
def runsOfAux (p : Char → Bool) : List Char → List Char → List (List Char)
  | cur, [] => if cur = [] then [] else [cur.reverse]
  | cur, c :: cs =>
    if p c then runsOfAux p (c :: cur) cs
    else if cur = [] then runsOfAux p [] cs
    else cur.reverse :: runsOfAux p [] cs

/-- Maximal runs of characters satisfying `p`: the matches of
`findall(r"[...]+", s)`. -/
def runsOf (p : Char → Bool) (l : List Char) : List (List Char) := runsOfAux p [] l

/-- The inner `for match in re.findall(...)` loop: first run whose digits
form a 3–5 digit string. -/
def scanRuns : List (List Char) → Option (List Char)
  | [] => none
  | run :: rest =>
    let digits := run.filter Char.isDigit
    if 3 ≤ digits.length ∧ digits.length ≤ 5 then some digits else scanRuns rest

/-- The `for value in row_values` fallback loop of
`extract_internal_extension_from_row`. -/
def scanRowValues : List String → Option String
  | [] => none
  | v :: rest =>
    if v = "" then scanRowValues rest
    else
      match scanRuns (runsOf phoneRunChar v.data) with
      | some d => some (String.mk d)
      | none => scanRowValues rest

/-- The dedicated-column branch of `extract_internal_extension_from_row`:
returns its stripped digits when they form a 3–5 digit run. -/
def dedicatedExtension (phone_internal_raw : String) : Option String :=
  if phone_internal_raw = "" then none
  else
    let digits := cleanupDigits phone_internal_raw
    if 3 ≤ digits.length ∧ digits.length ≤ 5 then some (String.mk digits) else none

/-- `excel_io.extract_internal_extension_from_row`. -/
def extract_internal_extension_from_row (phone_internal_raw : String)
    (row_values : List String) : Option String :=
  match dedicatedExtension phone_internal_raw with
  | some d => some d
  | none => scanRowValues row_values

/-- `dept_alias_map.get(raw.full_department_name,
raw.full_department_name)`. -/
def aliasedGroup (dept_alias_map : List (String × String)) (dept : String) : String :=
  (dictLookup dept_alias_map dept).getD dept

/-- The `Contact(...)` built for one raw record by
`normalize_raw_contacts` (`raw.internal_extension or ""`). -/
def toContact (dept_alias_map : List (String × String)) (raw : RawContact) : Contact :=
  { group := aliasedGroup dept_alias_map raw.full_department_name,
    name := raw.full_name,
    office := raw.internal_extension.getD "",
    mobile := "", other := "", photo := "", contact_id := none }

/-- `any(num.strip() for num in [contact.office, contact.mobile,
contact.other])`. -/
def hasUsableNumber (c : Contact) : Bool :=
  decide (pyStrip c.office ≠ "") || decide (pyStrip c.mobile ≠ "") ||
    decide (pyStrip c.other ≠ "")

/-- The sort key `c.name.casefold()` (casefold embedded as per-character
`toLower`). -/
def lowerKey (s : String) : String := String.mk (s.data.map Char.toLower)

/-- Comparison for `contacts.sort(key=lambda c: c.name.casefold())`. -/
def leNameCI (a b : Contact) : Bool := pyStrLe (lowerKey a.name) (lowerKey b.name)

/-- The grouping loop of `normalize_raw_contacts` (the dict `grouped` and
the list `group_order` are kept in sync by the source; both are embedded
as one insertion-ordered association list). -/
def buildGrouped (dept_alias_map : List (String × String)) :
    List RawContact → List (String × List Contact) → List (String × List Contact)
  | [], acc => acc
  | raw :: rest, acc =>
    let c := toContact dept_alias_map raw
    if hasUsableNumber c then buildGrouped dept_alias_map rest (addToGroup acc c.group c)
    else buildGrouped dept_alias_map rest acc

/-- `excel_io.normalize_raw_contacts`. -/
def normalize_raw_contacts (raw_contacts : List RawContact)
    (dept_alias_map : List (String × String)) : List Contact :=
  (buildGrouped dept_alias_map raw_contacts []).flatMap
    (fun p => pySort leNameCI p.2)

/-- Spec-side view of `normalize_raw_contacts`: the normalized contacts
that survive the no-usable-number drop. -/
def survivorContacts (raw_contacts : List RawContact)
    (dept_alias_map : List (String × String)) : List Contact :=
  (raw_contacts.map (toContact dept_alias_map)).filter hasUsableNumber

/-- Deduplication keeping first occurrences, with an accumulator of
already-seen values. -/
def firstSeenAux : List String → List String → List String
  | acc, [] => acc
  | acc, x :: xs => if x ∈ acc then firstSeenAux acc xs else firstSeenAux (acc ++ [x]) xs

/-- Deduplication keeping first occurrences (the `group_order` list). -/
def firstSeen (l : List String) : List String := firstSeenAux [] l

/-! The embedded string order: a strict weak order matching Python string
comparison. -/

theorem ltCharList_irrefl (l : List Char) : ltCharList l l = false := by
  induction l with
  | nil => rfl
  | cons a as ih => simp [ltCharList, ih]

theorem ltCharList_asymm : ∀ {l₁ l₂ : List Char},
    ltCharList l₁ l₂ = true → ltCharList l₂ l₁ = false := by
  intro l₁
  induction l₁ with
  | nil =>
    intro l₂ h
    cases l₂ with
    | nil => simp [ltCharList] at h
    | cons b bs => rfl
  | cons a as ih =>
    intro l₂ h
    cases l₂ with
    | nil => simp [ltCharList] at h
    | cons b bs =>
      by_cases hab : a = b
      · subst hab
        simp only [ltCharList, if_pos rfl] at h ⊢
        exact ih h
      · simp only [ltCharList, if_neg hab, decide_eq_true_eq] at h
        have hba : b ≠ a := fun he => hab he.symm
        simp only [ltCharList, if_neg hba, decide_eq_false_iff_not]
        exact lt_asymm h

theorem ltCharList_trans : ∀ {l₁ l₂ l₃ : List Char}, ltCharList l₁ l₂ = true →
    ltCharList l₂ l₃ = true → ltCharList l₁ l₃ = true := by
  intro l₁
  induction l₁ with
  | nil =>
    intro l₂ l₃ h1 h2
    cases l₂ with
    | nil => simp [ltCharList] at h1
    | cons b bs =>
      cases l₃ with
      | nil => simp [ltCharList] at h2
      | cons c cs => rfl
  | cons a as ih =>
    intro l₂ l₃ h1 h2
    cases l₂ with
    | nil => simp [ltCharList] at h1
    | cons b bs =>
      cases l₃ with
      | nil => simp [ltCharList] at h2
      | cons c cs =>
        by_cases hab : a = b <;> by_cases hbc : b = c
        · subst hab
          subst hbc
          simp only [ltCharList, if_pos rfl] at h1 h2 ⊢
          exact ih h1 h2
        · subst hab
          simp only [ltCharList, if_pos rfl] at h1
          simp only [ltCharList, if_neg hbc, decide_eq_true_eq] at h2
          simp only [ltCharList, if_neg hbc, decide_eq_true_eq]
          exact h2
        · subst hbc
          simp only [ltCharList, if_neg hab, decide_eq_true_eq] at h1
          simp only [ltCharList, if_neg hab, decide_eq_true_eq]
          exact h1
        · simp only [ltCharList, if_neg hab, decide_eq_true_eq] at h1
          simp only [ltCharList, if_neg hbc, decide_eq_true_eq] at h2
          have hac : a < c := lt_trans h1 h2
          have hne : a ≠ c := ne_of_lt hac
          simp only [ltCharList, if_neg hne, decide_eq_true_eq]
          exact hac

theorem ltCharList_total (l₁ l₂ : List Char) :
    ltCharList l₁ l₂ = true ∨ l₁ = l₂ ∨ ltCharList l₂ l₁ = true := by
  induction l₁ generalizing l₂ with
  | nil =>
    cases l₂ with
    | nil => exact Or.inr (Or.inl rfl)
    | cons b bs => exact Or.inl rfl
  | cons a as ih =>
    cases l₂ with
    | nil => exact Or.inr (Or.inr rfl)
    | cons b bs =>
      by_cases hab : a = b
      · subst hab
        rcases ih bs with h | h | h
        · exact Or.inl (by simp [ltCharList, h])
        · exact Or.inr (Or.inl (by rw [h]))
        · exact Or.inr (Or.inr (by simp [ltCharList, h]))
      · rcases lt_trichotomy a b with h | h | h
        · exact Or.inl (by simp [ltCharList, if_neg hab, h])
        · exact absurd h hab
        · have hba : b ≠ a := fun he => hab he.symm
          exact Or.inr (Or.inr (by simp [ltCharList, if_neg hba, h]))

theorem pyStrLe_iff {a b : String} :
    pyStrLe a b = true ↔ (pyStrLt a b = true ∨ a = b) := by
  simp [pyStrLe, Bool.or_eq_true, beq_iff_eq]

theorem pyStrLe_refl (a : String) : pyStrLe a a = true :=
  pyStrLe_iff.mpr (Or.inr rfl)

theorem pyStrLt_asymm {a b : String} (h : pyStrLt a b = true) : pyStrLt b a = false :=
  ltCharList_asymm h

theorem pyStrLt_irrefl (a : String) : pyStrLt a a = false := ltCharList_irrefl a.data

theorem pyStrLt_trans {a b c : String} (h1 : pyStrLt a b = true)
    (h2 : pyStrLt b c = true) : pyStrLt a c = true :=
  ltCharList_trans h1 h2

theorem string_data_inj {a b : String} (h : a.data = b.data) : a = b := by
  cases a
  cases b
  simp only at h
  rw [h]

theorem pyStrLe_trans {a b c : String} (h1 : pyStrLe a b = true)
    (h2 : pyStrLe b c = true) : pyStrLe a c = true := by
  rw [pyStrLe_iff] at h1 h2 ⊢
  rcases h1 with h1 | rfl
  · rcases h2 with h2 | rfl
    · exact Or.inl (pyStrLt_trans h1 h2)
    · exact Or.inl h1
  · exact h2

theorem pyStrLe_total (a b : String) : (pyStrLe a b || pyStrLe b a) = true := by
  rw [Bool.or_eq_true, pyStrLe_iff, pyStrLe_iff]
  rcases ltCharList_total a.data b.data with h | h | h
  · exact Or.inl (Or.inl h)
  · exact Or.inl (Or.inr (string_data_inj h))
  · exact Or.inr (Or.inl h)

theorem pyStrLe_antisymm {a b : String} (h1 : pyStrLe a b = true)
    (h2 : pyStrLe b a = true) : a = b := by
  rw [pyStrLe_iff] at h1 h2
  rcases h1 with h1 | rfl
  · rcases h2 with h2 | he
    · rw [pyStrLt_asymm h1] at h2
      exact absurd h2 (by simp)
    · exact he.symm
  · rfl

/-! The stable insertion sort `pySort`: permutation, sortedness, and
agreement with the standard library stable mergesort. -/

theorem orderedInsertB_perm {α : Type} (le : α → α → Bool) (a : α) (l : List α) :
    (orderedInsertB le a l).Perm (a :: l) := by
  induction l with
  | nil => exact List.Perm.refl _
  | cons b t ih =>
    by_cases h : le a b
    · rw [orderedInsertB, if_pos h]
    · rw [orderedInsertB, if_neg h]
      exact (ih.cons b).trans (List.Perm.swap a b t)

theorem pySort_perm {α : Type} (le : α → α → Bool) (l : List α) :
    (pySort le l).Perm l := by
  induction l with
  | nil => exact List.Perm.refl _
  | cons a t ih => exact (orderedInsertB_perm le a (pySort le t)).trans (ih.cons a)

theorem pySort_nil {α : Type} (le : α → α → Bool) : pySort le ([] : List α) = [] := rfl

theorem orderedInsertB_eq {α : Type} (le : α → α → Bool) (a : α) (l₁ l₂ : List α)
    (h1 : ∀ b ∈ l₁, le a b = false) (h2 : ∀ b ∈ l₂, le a b = true) :
    orderedInsertB le a (l₁ ++ l₂) = l₁ ++ a :: l₂ := by
  induction l₁ with
  | nil =>
    cases l₂ with
    | nil => rfl
    | cons b t => simp [orderedInsertB, h2 b (List.mem_cons_self b t)]
  | cons c t ih =>
    have hc := h1 c (List.mem_cons_self c t)
    rw [List.cons_append, orderedInsertB, if_neg (by simp [hc]), List.cons_append]
    rw [ih (fun b hb => h1 b (List.mem_cons_of_mem c hb))]

theorem pySort_eq_mergeSort {α : Type} (le : α → α → Bool)
    (htrans : ∀ a b c : α, le a b = true → le b c = true → le a c = true)
    (htotal : ∀ a b : α, (le a b || le b a) = true) (l : List α) :
    pySort le l = l.mergeSort le := by
  induction l with
  | nil => rw [List.mergeSort_nil]; rfl
  | cons a l ih =>
    obtain ⟨l₁, l₂, h1, h2, h3⟩ := List.mergeSort_cons htrans htotal a l
    have hs := List.sorted_mergeSort htrans htotal (a :: l)
    rw [h1] at hs
    have hl₂ : ∀ b ∈ l₂, le a b = true := by
      have := (List.pairwise_append.mp hs).2.1
      exact (List.pairwise_cons.mp this).1
    have hl₁ : ∀ b ∈ l₁, le a b = false := by
      intro b hb
      have := h3 b hb
      cases hab : le a b
      · rfl
      · rw [hab] at this
        simp at this
    show orderedInsertB le a (pySort le l) = (a :: l).mergeSort le
    rw [ih, h2, h1]
    exact orderedInsertB_eq le a l₁ l₂ hl₁ hl₂

theorem sorted_pySort {α : Type} {le : α → α → Bool}
    (htrans : ∀ a b c : α, le a b = true → le b c = true → le a c = true)
    (htotal : ∀ a b : α, (le a b || le b a) = true) (l : List α) :
    (pySort le l).Pairwise (fun a b => le a b = true) := by
  rw [pySort_eq_mergeSort le htrans htotal]
  exact List.sorted_mergeSort htrans htotal l

theorem pySort_of_sorted {α : Type} {le : α → α → Bool} {l : List α}
    (h : l.Pairwise (fun a b => le a b = true)) : pySort le l = l := by
  induction l with
  | nil => rfl
  | cons a t ih =>
    rw [List.pairwise_cons] at h
    show orderedInsertB le a (pySort le t) = a :: t
    rw [ih h.2]
    have := orderedInsertB_eq le a [] t (by simp) h.1
    simpa using this

/-! Properties of the comparison functions. -/

theorem le1_iff {a b : String × Int} :
    le1 a b = true ↔ (a.2 < b.2 ∨ (a.2 = b.2 ∧ pyStrLe a.1 b.1 = true)) := by
  simp [le1, Bool.or_eq_true, Bool.and_eq_true, decide_eq_true_eq]

theorem le1_trans (a b c : String × Int) (h1 : le1 a b = true) (h2 : le1 b c = true) :
    le1 a c = true := by
  rw [le1_iff] at h1 h2 ⊢
  rcases h1 with h1 | ⟨h1, h1s⟩ <;> rcases h2 with h2 | ⟨h2, h2s⟩
  · exact Or.inl (lt_trans h1 h2)
  · exact Or.inl (h2 ▸ h1)
  · exact Or.inl (h1 ▸ h2)
  · exact Or.inr ⟨h1.trans h2, pyStrLe_trans h1s h2s⟩

theorem le1_total (a b : String × Int) : (le1 a b || le1 b a) = true := by
  rw [Bool.or_eq_true, le1_iff, le1_iff]
  rcases lt_trichotomy a.2 b.2 with h | h | h
  · exact Or.inl (Or.inl h)
  · have hst := pyStrLe_total a.1 b.1
    rw [Bool.or_eq_true] at hst
    rcases hst with hs | hs
    · exact Or.inl (Or.inr ⟨h, hs⟩)
    · exact Or.inr (Or.inr ⟨h.symm, hs⟩)
  · exact Or.inr (Or.inl h)

theorem le1_antisymm {a b : String × Int} (h1 : le1 a b = true) (h2 : le1 b a = true) :
    a = b := by
  rw [le1_iff] at h1 h2
  rcases h1 with h1 | ⟨h1, h1s⟩ <;> rcases h2 with h2 | ⟨h2, h2s⟩
  · exact absurd h2 (lt_asymm h1)
  · exact absurd h1 (h2 ▸ lt_irrefl _)
  · exact absurd h2 (h1 ▸ lt_irrefl _)
  · exact Prod.ext (pyStrLe_antisymm h1s h2s) h1

theorem le2_iff {a b : String × Int} : le2 a b = true ↔ a.2 ≤ b.2 := by
  simp [le2]

theorem le2_trans (a b c : String × Int) (h1 : le2 a b = true) (h2 : le2 b c = true) :
    le2 a c = true := by
  rw [le2_iff] at h1 h2 ⊢
  exact le_trans h1 h2

theorem le2_total (a b : String × Int) : (le2 a b || le2 b a) = true := by
  rw [Bool.or_eq_true, le2_iff, le2_iff]
  exact le_total a.2 b.2

theorem le1_imp_le2 {a b : String × Int} (h : le1 a b = true) : le2 a b = true := by
  rw [le1_iff] at h
  rw [le2_iff]
  rcases h with h | ⟨h, _⟩
  · exact le_of_lt h
  · exact le_of_eq h

theorem leName_trans (a b c : String) (h1 : leName a b = true) (h2 : leName b c = true) :
    leName a c = true :=
  pyStrLe_trans h1 h2

theorem leName_total (a b : String) : (leName a b || leName b a) = true :=
  pyStrLe_total a b

/-! Association-list lookup lemmas. -/

theorem dictLookup_isSome_iff {β : Type} {m : List (String × β)} {k : String} :
    (dictLookup m k).isSome = true ↔ k ∈ m.map Prod.fst := by
  induction m with
  | nil => simp [dictLookup]
  | cons p rest ih =>
    by_cases h : p.1 = k
    · simp [dictLookup, h]
    · simp only [dictLookup, if_neg h, List.map_cons, List.mem_cons, ih]
      constructor
      · exact Or.inr
      · rintro (hk | hk)
        · exact absurd hk.symm h
        · exact hk

theorem dictLookup_eq_none_iff {β : Type} {m : List (String × β)} {k : String} :
    dictLookup m k = none ↔ k ∉ m.map Prod.fst := by
  rw [← dictLookup_isSome_iff]
  cases dictLookup m k <;> simp

theorem dictLookup_mem {β : Type} {m : List (String × β)} {k : String} {v : β}
    (h : dictLookup m k = some v) : (k, v) ∈ m := by
  induction m with
  | nil => simp [dictLookup] at h
  | cons p rest ih =>
    by_cases hp : p.1 = k
    · simp only [dictLookup, if_pos hp] at h
      have hv : p.2 = v := by injection h
      have hpe : p = (k, v) := by
        cases p
        simp only at hp hv
        rw [hp, hv]
      rw [← hpe]
      exact List.mem_cons_self p rest
    · simp only [dictLookup, if_neg hp] at h
      exact List.mem_cons_of_mem _ (ih h)

theorem dictLookup_of_mem_nodup {β : Type} {m : List (String × β)} {k : String} {v : β}
    (hnd : (m.map Prod.fst).Nodup) (h : (k, v) ∈ m) : dictLookup m k = some v := by
  induction m with
  | nil => simp at h
  | cons p rest ih =>
    simp only [List.map_cons, List.nodup_cons] at hnd
    rcases List.mem_cons.mp h with rfl | h2
    · simp [dictLookup]
    · have hne : p.1 ≠ k := by
        intro he
        exact hnd.1 (he ▸ (List.mem_map.mpr ⟨(k, v), h2, rfl⟩))
      simp only [dictLookup, if_neg hne]
      exact ih hnd.2 h2

theorem dictLookup_append_left {β : Type} {m₁ m₂ : List (String × β)} {k : String}
    (h : k ∈ m₁.map Prod.fst) : dictLookup (m₁ ++ m₂) k = dictLookup m₁ k := by
  induction m₁ with
  | nil => simp at h
  | cons p rest ih =>
    by_cases hp : p.1 = k
    · simp [dictLookup, hp]
    · simp only [List.map_cons, List.mem_cons] at h
      rcases h with h | h
      · exact absurd h.symm hp
      · simp only [List.cons_append, dictLookup, if_neg hp]
        exact ih h

theorem dictLookup_append_right {β : Type} {m₁ m₂ : List (String × β)} {k : String}
    (h : k ∉ m₁.map Prod.fst) : dictLookup (m₁ ++ m₂) k = dictLookup m₂ k := by
  induction m₁ with
  | nil => simp
  | cons p rest ih =>
    have hne : p.1 ≠ k := by
      intro he
      exact h (by rw [List.map_cons, he]; exact List.mem_cons_self _ _)
    have h2 : k ∉ rest.map Prod.fst := fun hk =>
      h (by rw [List.map_cons]; exact List.mem_cons_of_mem _ hk)
    rw [List.cons_append]
    show (if p.1 = k then some p.2 else dictLookup (rest ++ m₂) k) = dictLookup m₂ k
    rw [if_neg hne]
    exact ih h2

/-! `reindexFrom`, `rankFrom`, `maxValDefault` lemmas. -/

theorem reindexFrom_map_fst (i : Int) (l : List (String × Int)) :
    (reindexFrom i l).map Prod.fst = l.map Prod.fst := by
  induction l generalizing i with
  | nil => rfl
  | cons p rest ih => simp [reindexFrom, ih]

theorem reindexFrom_length (i : Int) (l : List (String × Int)) :
    (reindexFrom i l).length = l.length := by
  induction l generalizing i with
  | nil => rfl
  | cons p rest ih => simp [reindexFrom, ih]

theorem reindexFrom_snd_gt (i : Int) (l : List (String × Int)) :
    ∀ j : Int, i < j → ∀ q ∈ reindexFrom j l, i < q.2 := by
  induction l with
  | nil => intro j _ q hq; simp [reindexFrom] at hq
  | cons p rest ih =>
    intro j hj q hq
    rcases List.mem_cons.mp hq with rfl | hq2
    · exact hj
    · exact ih (j + 1) (by omega) q hq2

theorem reindexFrom_snd_lt (i : Int) (l : List (String × Int)) :
    (reindexFrom i l).Pairwise (fun p q => p.2 < q.2) := by
  induction l generalizing i with
  | nil => exact List.Pairwise.nil
  | cons p rest ih =>
    refine List.Pairwise.cons ?_ (ih (i + 1))
    intro q hq
    exact reindexFrom_snd_gt i rest (i + 1) (by omega) q hq

theorem reindexFrom_congr_fst (i : Int) {l l' : List (String × Int)}
    (h : l.map Prod.fst = l'.map Prod.fst) : reindexFrom i l = reindexFrom i l' := by
  induction l generalizing i l' with
  | nil =>
    cases l' with
    | nil => rfl
    | cons q r => simp at h
  | cons p rest ih =>
    cases l' with
    | nil => simp at h
    | cons q r =>
      simp only [List.map_cons, List.cons.injEq] at h
      simp [reindexFrom, h.1, ih (i + 1) h.2]

theorem reindexFrom_map_snd (i : Int) (l : List (String × Int)) :
    (reindexFrom i l).map Prod.snd = intsFrom i l.length := by
  induction l generalizing i with
  | nil => rfl
  | cons p rest ih =>
    simp only [reindexFrom, List.map_cons, List.length_cons, intsFrom, ih (i + 1)]

theorem dictLookup_reindexFrom (i : Int) (s t : List (String × Int)) (p : String × Int)
    (hns : p.1 ∉ s.map Prod.fst) :
    dictLookup (reindexFrom i (s ++ p :: t)) p.1 = some (i + s.length) := by
  induction s generalizing i with
  | nil => simp [reindexFrom, dictLookup]
  | cons q rest ih =>
    have hne : q.1 ≠ p.1 := by
      intro he
      exact hns (by rw [List.map_cons, he]; exact List.mem_cons_self _ _)
    have hns2 : p.1 ∉ rest.map Prod.fst := fun hk =>
      hns (by rw [List.map_cons]; exact List.mem_cons_of_mem _ hk)
    rw [List.cons_append]
    show (if q.1 = p.1 then some i
      else dictLookup (reindexFrom (i + 1) (rest ++ p :: t)) p.1) = some (i + (q :: rest).length)
    rw [if_neg hne, ih (i + 1) hns2]
    congr 1
    simp only [List.length_cons]
    omega

theorem rankFrom_map_fst (m : Int) (names : List String) :
    (rankFrom m names).map Prod.fst = names := by
  induction names generalizing m with
  | nil => rfl
  | cons n rest ih => simp [rankFrom, ih]

theorem rankFrom_snd_gt (m : Int) (names : List String) :
    ∀ p ∈ rankFrom m names, m < p.2 := by
  induction names generalizing m with
  | nil => intro p hp; simp [rankFrom] at hp
  | cons n rest ih =>
    intro p hp
    rcases List.mem_cons.mp hp with rfl | hp2
    · omega
    · have := ih (m + 1) p hp2
      omega

theorem rankFrom_pairwise (m : Int) (names : List String) :
    (rankFrom m names).Pairwise (fun p q => p.2 < q.2) := by
  induction names generalizing m with
  | nil => exact List.Pairwise.nil
  | cons n rest ih =>
    refine List.Pairwise.cons ?_ (ih (m + 1))
    intro q hq
    exact rankFrom_snd_gt (m + 1) rest q hq

theorem foldl_max_le_init (a : Int) (l : List Int) : a ≤ l.foldl max a := by
  induction l generalizing a with
  | nil => exact le_rfl
  | cons b rest ih => exact le_trans (le_max_left a b) (ih (max a b))

theorem foldl_max_le_mem {v : Int} {l : List Int} (hv : v ∈ l) (a : Int) :
    v ≤ l.foldl max a := by
  induction l generalizing a with
  | nil => simp at hv
  | cons b rest ih =>
    rcases List.mem_cons.mp hv with rfl | h2
    · exact le_trans (le_max_right a v) (foldl_max_le_init _ _)
    · exact ih h2 (max a b)

theorem maxValDefault_ge (l : List Int) : ∀ v ∈ l, v ≤ maxValDefault l := by
  intro v hv
  cases l with
  | nil => simp at hv
  | cons w rest =>
    rcases List.mem_cons.mp hv with rfl | h2
    · exact foldl_max_le_init v rest
    · exact foldl_max_le_mem h2 w

/-! Structure of `_normalize_order_map`. -/

theorem appended_pairwise_le2 (M : List (String × Int)) (G : List String) :
    ((pySort le1 (knownPairs M G)) ++
      rankFrom (maxValDefault ((pySort le1 (knownPairs M G)).map Prod.snd))
        (pySort leName (missingNames M G))).Pairwise (fun p q => le2 p q = true) := by
  rw [List.pairwise_append]
  refine ⟨?_, ?_, ?_⟩
  · exact (sorted_pySort le1_trans le1_total (knownPairs M G)).imp le1_imp_le2
  · exact (rankFrom_pairwise _ _).imp (fun h => le2_iff.mpr (le_of_lt h))
  · intro a ha b hb
    have h1 : a.2 ≤ maxValDefault ((pySort le1 (knownPairs M G)).map Prod.snd) :=
      maxValDefault_ge _ a.2 (List.mem_map.mpr ⟨a, ha, rfl⟩)
    have h2 := rankFrom_snd_gt _ _ b hb
    exact le2_iff.mpr (le_of_lt (lt_of_le_of_lt h1 h2))

/-- The final `sort(key=lambda x: x[1])` of `_normalize_order_map` finds
its input already sorted, so the result is the re-enumeration of
sorted-known-pairs followed by name-sorted fresh groups. -/
theorem normalize_eq (M : List (String × Int)) (G : List String) :
    _normalize_order_map M G =
      reindexFrom 1 ((pySort le1 (knownPairs M G)) ++
        rankFrom (maxValDefault ((pySort le1 (knownPairs M G)).map Prod.snd))
          (pySort leName (missingNames M G))) := by
  show reindexFrom 1 (pySort le2 ((pySort le1 (knownPairs M G)) ++
      rankFrom (maxValDefault ((pySort le1 (knownPairs M G)).map Prod.snd))
        (pySort leName (missingNames M G)))) = _
  rw [pySort_of_sorted (appended_pairwise_le2 M G)]

theorem knownPairs_map_fst (M : List (String × Int)) (G : List String) :
    (knownPairs M G).map Prod.fst = G.filter (fun n => (dictLookup M n).isSome) := by
  induction G with
  | nil => rfl
  | cons n rest ih =>
    cases h : dictLookup M n with
    | none => simpa [knownPairs, List.filterMap_cons, h, List.filter_cons] using ih
    | some v => simpa [knownPairs, List.filterMap_cons, h, List.filter_cons] using ih

theorem mem_knownPairs {M : List (String × Int)} {G : List String} {p : String × Int} :
    p ∈ knownPairs M G ↔ p.1 ∈ G ∧ dictLookup M p.1 = some p.2 := by
  rw [knownPairs, List.mem_filterMap]
  constructor
  · rintro ⟨a, ha, hfa⟩
    obtain ⟨v, hv, hav⟩ := Option.map_eq_some'.mp hfa
    cases p
    cases hav
    exact ⟨ha, hv⟩
  · rintro ⟨h1, h2⟩
    exact ⟨p.1, h1, by rw [h2]; rfl⟩

theorem normalize_fst_perm (M : List (String × Int)) (G : List String) :
    ((_normalize_order_map M G).map Prod.fst).Perm G := by
  rw [normalize_eq, reindexFrom_map_fst, List.map_append, rankFrom_map_fst]
  have h1 : ((pySort le1 (knownPairs M G)).map Prod.fst).Perm
      (G.filter (fun n => (dictLookup M n).isSome)) := by
    rw [← knownPairs_map_fst]
    exact (pySort_perm le1 _).map Prod.fst
  have h2 : ((pySort leName (missingNames M G))).Perm (missingNames M G) :=
    pySort_perm leName _
  refine (h1.append h2).trans ?_
  have hneg : missingNames M G = G.filter (fun n => !(dictLookup M n).isSome) := by
    rw [missingNames]
    apply List.filter_congr
    intro n _
    cases dictLookup M n <;> rfl
  rw [hneg]
  exact List.filter_append_perm _ G

theorem normalize_length (M : List (String × Int)) (G : List String) :
    (_normalize_order_map M G).length = G.length := by
  have h := (normalize_fst_perm M G).length_eq
  rwa [List.length_map] at h

theorem normalize_pairwise_lt (M : List (String × Int)) (G : List String) :
    (_normalize_order_map M G).Pairwise (fun p q => p.2 < q.2) := by
  rw [normalize_eq]
  exact reindexFrom_snd_lt 1 _

theorem normalize_map_snd (M : List (String × Int)) (G : List String) :
    (_normalize_order_map M G).map Prod.snd = intsFrom 1 G.length := by
  conv_lhs => rw [normalize_eq, reindexFrom_map_snd]
  congr 1
  have h := normalize_length M G
  rw [normalize_eq, reindexFrom_length] at h
  exact h

theorem reindexFrom_idem (i : Int) (l : List (String × Int)) :
    reindexFrom i (reindexFrom i l) = reindexFrom i l :=
  reindexFrom_congr_fst i (reindexFrom_map_fst i l)

theorem knownPairs_eq_map_of_all_some {M : List (String × Int)} {G : List String}
    (h : ∀ n ∈ G, (dictLookup M n).isSome) :
    knownPairs M G = G.map (fun n => (n, (dictLookup M n).getD 0)) := by
  induction G with
  | nil => rfl
  | cons n rest ih =>
    have hn := h n (List.mem_cons_self n rest)
    obtain ⟨v, hv⟩ := Option.isSome_iff_exists.mp hn
    have htail := ih (fun m hm => h m (List.mem_cons_of_mem _ hm))
    have hstep : knownPairs M (n :: rest) = (n, v) :: knownPairs M rest := by
      simp [knownPairs, List.filterMap_cons, hv]
    rw [hstep, htail, List.map_cons, hv]
    rfl

theorem normalize_lookup_isSome {M : List (String × Int)} {G : List String} {n : String}
    (hn : n ∈ G) : (dictLookup (_normalize_order_map M G) n).isSome := by
  rw [dictLookup_isSome_iff]
  exact (normalize_fst_perm M G).mem_iff.mpr hn

theorem missingNames_normalize_eq_nil (M : List (String × Int)) (G : List String) :
    missingNames (_normalize_order_map M G) G = [] := by
  rw [missingNames, List.filter_eq_nil_iff]
  intro n hn
  have h := normalize_lookup_isSome (M := M) hn
  cases hd : dictLookup (_normalize_order_map M G) n with
  | none => rw [hd] at h; simp at h
  | some v => simp [hd]

theorem pySort_knownPairs_normalize (M : List (String × Int)) (G : List String)
    (hG : G.Nodup) :
    pySort le1 (knownPairs (_normalize_order_map M G) G) = _normalize_order_map M G := by
  have hfst := normalize_fst_perm M G
  have hnd : ((_normalize_order_map M G).map Prod.fst).Nodup := hfst.nodup_iff.mpr hG
  have hkp := knownPairs_eq_map_of_all_some
    (fun n hn => normalize_lookup_isSome (M := M) (G := G) hn)
  have hcong : ∀ p ∈ _normalize_order_map M G,
      (p.1, (dictLookup (_normalize_order_map M G) p.1).getD 0) = p := by
    intro p hp
    have hmem : (p.1, p.2) ∈ _normalize_order_map M G := by
      cases p
      exact hp
    rw [dictLookup_of_mem_nodup hnd hmem]
    simp
  have hperm : (knownPairs (_normalize_order_map M G) G).Perm (_normalize_order_map M G) := by
    rw [hkp]
    have h1 := (hfst.symm).map
      (fun n => (n, (dictLookup (_normalize_order_map M G) n).getD 0))
    refine h1.trans ?_
    have h2 : ((_normalize_order_map M G).map Prod.fst).map
        (fun n => (n, (dictLookup (_normalize_order_map M G) n).getD 0)) =
        _normalize_order_map M G := by
      rw [List.map_map]
      have hcong2 : ∀ p ∈ _normalize_order_map M G,
          ((fun n => (n, (dictLookup (_normalize_order_map M G) n).getD 0)) ∘ Prod.fst) p
            = p := hcong
      rw [List.map_congr_left hcong2]
      exact List.map_id _
    rw [h2]
  have hsortedR : (_normalize_order_map M G).Pairwise (fun a b => le1 a b = true) :=
    (normalize_pairwise_lt M G).imp (fun h => le1_iff.mpr (Or.inl h))
  exact @List.eq_of_perm_of_sorted _ (fun a b => le1 a b = true)
    ⟨fun a b h1 h2 => le1_antisymm h1 h2⟩ _ _
    ((pySort_perm le1 _).trans hperm)
    (sorted_pySort le1_trans le1_total _) hsortedR

/-- C2: the order reconciler is idempotent: reconciling an order map with a
set of group names and then reconciling the result with the same set
returns the same map. -/
theorem claim_C2_reconcile_idempotent (M : List (String × Int)) (G : List String)
    (hG : G.Nodup) :
    _normalize_order_map (_normalize_order_map M G) G = _normalize_order_map M G := by
  rw [normalize_eq (_normalize_order_map M G) G, missingNames_normalize_eq_nil,
    pySort_knownPairs_normalize M G hG, pySort_nil]
  show reindexFrom 1 (_normalize_order_map M G ++ []) = _
  rw [List.append_nil]
  conv_lhs => rw [normalize_eq M G]
  conv_rhs => rw [normalize_eq M G]
  exact reindexFrom_idem 1 _

/-- Witness for C2 at a concrete map and group set. -/
theorem claim_C2_reconcile_idempotent_witness :
    (["a", "c"] : List String).Nodup ∧
      _normalize_order_map (_normalize_order_map [("b", 2), ("a", 9)] ["a", "c"]) ["a", "c"] =
        _normalize_order_map [("b", 2), ("a", 9)] ["a", "c"] :=
  ⟨by decide, claim_C2_reconcile_idempotent [("b", 2), ("a", 9)] ["a", "c"] (by decide)⟩

theorem before_of_pairwise {α : Type} {r : α → α → Prop} {L : List α}
    (hpair : L.Pairwise r) {p q : α} (hp : p ∈ L) (hq : q ∈ L) (hne : p ≠ q)
    (hnr : ¬ r q p) : ∃ s t₁ t₂, L = s ++ p :: (t₁ ++ q :: t₂) := by
  obtain ⟨s, t, hL⟩ := List.append_of_mem hp
  subst hL
  have hcross := (List.pairwise_append.mp hpair).2.2
  rcases List.mem_append.mp hq with hqs | hqc
  · exact absurd (hcross q hqs p (List.mem_cons_self p t)) hnr
  · rcases List.mem_cons.mp hqc with rfl | hqt
    · exact absurd rfl hne
    · obtain ⟨t₁, t₂, ht⟩ := List.append_of_mem hqt
      exact ⟨s, t₁, t₂, by rw [ht]⟩

theorem reindex_rank_lt {L : List (String × Int)} (hnd : (L.map Prod.fst).Nodup)
    {s t₁ t₂ : List (String × Int)} {p q : String × Int}
    (hL : L = s ++ p :: (t₁ ++ q :: t₂)) :
    ∃ rp rq : Int, dictLookup (reindexFrom 1 L) p.1 = some rp ∧
      dictLookup (reindexFrom 1 L) q.1 = some rq ∧ rp < rq := by
  subst hL
  rw [List.map_append, List.map_cons] at hnd
  have hps : p.1 ∉ s.map Prod.fst := by
    rcases List.nodup_append.mp hnd with ⟨_, _, hdisj⟩
    intro hmem
    exact hdisj hmem (List.mem_cons_self _ _)
  have hq2 : (s ++ p :: t₁) ++ q :: t₂ = s ++ p :: (t₁ ++ q :: t₂) := by
    simp
  have hqs : q.1 ∉ (s ++ p :: t₁).map Prod.fst := by
    intro hmem
    have hnd2 : (((s ++ p :: t₁) ++ q :: t₂).map Prod.fst).Nodup := by
      rw [hq2, List.map_append, List.map_cons]
      exact hnd
    rw [List.map_append, List.map_cons] at hnd2
    rcases List.nodup_append.mp hnd2 with ⟨_, _, hdisj⟩
    exact hdisj hmem (List.mem_cons_self _ _)
  refine ⟨1 + s.length, 1 + ((s ++ p :: t₁).length : Int), ?_, ?_, ?_⟩
  · exact dictLookup_reindexFrom 1 s (t₁ ++ q :: t₂) p hps
  · rw [← hq2]
    exact dictLookup_reindexFrom 1 (s ++ p :: t₁) t₂ q hqs
  · have : s.length < (s ++ p :: t₁).length := by
      rw [List.length_append, List.length_cons]
      omega
    omega

theorem normalize_appended_fst_nodup (M : List (String × Int)) (G : List String)
    (hG : G.Nodup) :
    ((((pySort le1 (knownPairs M G)) ++
      rankFrom (maxValDefault ((pySort le1 (knownPairs M G)).map Prod.snd))
        (pySort leName (missingNames M G)))).map Prod.fst).Nodup := by
  have h := (normalize_fst_perm M G).nodup_iff.mpr hG
  rw [normalize_eq, reindexFrom_map_fst] at h
  exact h

/-- C3: the order reconciler is monotone: two groups of the current set
that both carry ranks in the input map, with strictly ordered ranks, keep
strictly ordered ranks in the reconciled map. -/
theorem claim_C3_reconcile_monotone (M : List (String × Int)) (G : List String)
    (hG : G.Nodup) (A B : String) (a b : Int) (hA : A ∈ G) (hB : B ∈ G)
    (hMA : dictLookup M A = some a) (hMB : dictLookup M B = some b) (hab : a < b) :
    ∃ rA rB : Int, dictLookup (_normalize_order_map M G) A = some rA ∧
      dictLookup (_normalize_order_map M G) B = some rB ∧ rA < rB := by
  rw [normalize_eq]
  have hAL : ((A, a) : String × Int) ∈ (pySort le1 (knownPairs M G)) ++
      rankFrom (maxValDefault ((pySort le1 (knownPairs M G)).map Prod.snd))
        (pySort leName (missingNames M G)) :=
    List.mem_append_left _ ((pySort_perm le1 _).mem_iff.mpr
      (mem_knownPairs.mpr ⟨hA, hMA⟩))
  have hBL : ((B, b) : String × Int) ∈ (pySort le1 (knownPairs M G)) ++
      rankFrom (maxValDefault ((pySort le1 (knownPairs M G)).map Prod.snd))
        (pySort leName (missingNames M G)) :=
    List.mem_append_left _ ((pySort_perm le1 _).mem_iff.mpr
      (mem_knownPairs.mpr ⟨hB, hMB⟩))
  have hpair := (appended_pairwise_le2 M G)
  have hne : ((A, a) : String × Int) ≠ (B, b) := by
    intro he
    rw [Prod.mk.injEq] at he
    omega
  have hnr : ¬ (le2 ((B, b) : String × Int) (A, a) = true) := by
    rw [le2_iff]
    simp only
    omega
  obtain ⟨s, t₁, t₂, hdecomp⟩ := before_of_pairwise hpair hAL hBL hne hnr
  exact reindex_rank_lt (normalize_appended_fst_nodup M G hG) hdecomp

/-- Witness for C3 at a concrete map and group set. -/
theorem claim_C3_reconcile_monotone_witness :
    (["y", "x", "z"] : List String).Nodup ∧
      ∃ rA rB : Int,
        dictLookup (_normalize_order_map [("x", 7), ("y", 3)] ["y", "x", "z"]) "y" = some rA ∧
        dictLookup (_normalize_order_map [("x", 7), ("y", 3)] ["y", "x", "z"]) "x" = some rB ∧
        rA < rB :=
  ⟨by decide, claim_C3_reconcile_monotone [("x", 7), ("y", 3)] ["y", "x", "z"] (by decide)
    "y" "x" 3 7 (by decide) (by decide) (by decide) (by decide) (by decide)⟩

theorem normalize_eq_appended (M : List (String × Int)) (G : List String) :
    _normalize_order_map M G = reindexFrom 1 (appendedList M G) :=
  normalize_eq M G

theorem appended_pairwise_le1 (M : List (String × Int)) (G : List String) :
    (appendedList M G).Pairwise (fun p q => le1 p q = true) := by
  rw [appendedList, List.pairwise_append]
  refine ⟨sorted_pySort le1_trans le1_total _, ?_, ?_⟩
  · exact (rankFrom_pairwise _ _).imp (fun h => le1_iff.mpr (Or.inl h))
  · intro a ha b hb
    have h1 : a.2 ≤ maxValDefault ((pySort le1 (knownPairs M G)).map Prod.snd) :=
      maxValDefault_ge _ a.2 (List.mem_map.mpr ⟨a, ha, rfl⟩)
    have h2 := rankFrom_snd_gt _ _ b hb
    exact le1_iff.mpr (Or.inl (lt_of_le_of_lt h1 h2))

theorem appendedList_fst_nodup (M : List (String × Int)) (G : List String)
    (hG : G.Nodup) : ((appendedList M G).map Prod.fst).Nodup :=
  normalize_appended_fst_nodup M G hG

theorem ranks_lt_of_appended (M : List (String × Int)) (G : List String) (hG : G.Nodup)
    {p q : String × Int} (hp : p ∈ appendedList M G) (hq : q ∈ appendedList M G)
    (hne : p ≠ q) (hnr : ¬ le1 q p = true) :
    ∃ rp rq : Int, dictLookup (_normalize_order_map M G) p.1 = some rp ∧
      dictLookup (_normalize_order_map M G) q.1 = some rq ∧ rp < rq := by
  obtain ⟨s, t₁, t₂, hd⟩ :=
    before_of_pairwise (appended_pairwise_le1 M G) hp hq hne hnr
  rw [normalize_eq_appended]
  exact reindex_rank_lt (appendedList_fst_nodup M G hG) hd

theorem known_mem_appended {M : List (String × Int)} {G : List String} {A : String}
    {a : Int} (hA : A ∈ G) (hMA : dictLookup M A = some a) :
    ((A, a) : String × Int) ∈ appendedList M G :=
  List.mem_append_left _ ((pySort_perm le1 _).mem_iff.mpr
    (mem_knownPairs.mpr ⟨hA, hMA⟩))

theorem mem_rankFrom_of_mem {n : String} {names : List String} (h : n ∈ names) (m : Int) :
    ∃ v, (n, v) ∈ rankFrom m names ∧ m < v := by
  induction names generalizing m with
  | nil => simp at h
  | cons x rest ih =>
    rcases List.mem_cons.mp h with rfl | h2
    · exact ⟨m + 1, List.mem_cons_self _ _, by omega⟩
    · obtain ⟨v, hv, hlt⟩ := ih h2 (m + 1)
      exact ⟨v, List.mem_cons_of_mem _ hv, by omega⟩

theorem missing_mem_appended {M : List (String × Int)} {G : List String} {A : String}
    (hA : A ∈ G) (hMA : dictLookup M A = none) :
    ∃ v, ((A, v) : String × Int) ∈ appendedList M G ∧
      maxValDefault ((pySort le1 (knownPairs M G)).map Prod.snd) < v := by
  have hmiss : A ∈ missingNames M G := by
    rw [missingNames, List.mem_filter]
    exact ⟨hA, by rw [hMA]; rfl⟩
  have hsorted : A ∈ pySort leName (missingNames M G) :=
    (pySort_perm leName _).mem_iff.mpr hmiss
  obtain ⟨v, hv, hlt⟩ := mem_rankFrom_of_mem hsorted
    (maxValDefault ((pySort le1 (knownPairs M G)).map Prod.snd))
  exact ⟨v, List.mem_append_right _ hv, hlt⟩

theorem rankFrom_append (m : Int) (s t : List String) :
    rankFrom m (s ++ t) = rankFrom m s ++ rankFrom (m + s.length) t := by
  induction s generalizing m with
  | nil => simp [rankFrom]
  | cons x rest ih =>
    have h1 : rankFrom m ((x :: rest) ++ t) = (x, m + 1) :: rankFrom (m + 1) (rest ++ t) := rfl
    have h2 : rankFrom m (x :: rest) = (x, m + 1) :: rankFrom (m + 1) rest := rfl
    rw [h1, h2, ih (m + 1), List.cons_append]
    simp only [List.length_cons]
    have h3 : m + 1 + (rest.length : Int) = m + (((rest.length + 1 : Nat) : Int)) := by
      push_cast
      ring
    rw [h3]

theorem rankFrom_decomp_lt (m : Int) (s t₁ t₂ : List String) (A B : String) :
    ∃ vA vB : Int, (A, vA) ∈ rankFrom m (s ++ A :: (t₁ ++ B :: t₂)) ∧
      (B, vB) ∈ rankFrom m (s ++ A :: (t₁ ++ B :: t₂)) ∧ vA < vB := by
  rw [rankFrom_append]
  have hcons : rankFrom (m + (s.length : Int)) (A :: (t₁ ++ B :: t₂)) =
      (A, m + (s.length : Int) + 1) :: rankFrom (m + (s.length : Int) + 1) (t₁ ++ B :: t₂) :=
    rfl
  rw [hcons, rankFrom_append]
  refine ⟨m + (s.length : Int) + 1, m + (s.length : Int) + 1 + (t₁.length : Int) + 1,
    ?_, ?_, by omega⟩
  · exact List.mem_append_right _ (List.mem_cons_self _ _)
  · refine List.mem_append_right _ (List.mem_cons_of_mem _ (List.mem_append_right _ ?_))
    exact List.mem_cons_self _ _

/-- C7 counterexample: with persisted order {B ↦ 5} and a parsed file whose
menus are A (one contact, file position 1, no prefix) then B, the load-path
reconciliation gives the newly discovered group A rank 1 and the
already-known group B rank 2, so the new group is not appended after the
known one. -/
theorem claim_C7_counterexample :
    loadOrderUpdate [("B", 5)]
        (derivedOrderOf [Menu.mk "A" [PhoneUnit.mk "n" "" "1" "" ""],
          Menu.mk "B" []]) = [("A", 1), ("B", 2)] ∧
    dictLookup ([("B", 5)] : List (String × Int)) "A" = none ∧
    dictLookup ([("A", 1), ("B", 2)] : List (String × Int)) "A" = some 1 ∧
    dictLookup ([("A", 1), ("B", 2)] : List (String × Int)) "B" = some 2 ∧
    ¬ ((1 : Int) > 2) := by
  refine ⟨by decide, by decide, by decide, by decide, by decide⟩

theorem pyStrLt_not_le {A B : String} (h : pyStrLt A B = true) : pyStrLe B A = false := by
  have hne : B ≠ A := by
    intro he
    subst he
    rw [pyStrLt_irrefl] at h
    exact absurd h (by simp)
  rw [pyStrLe, pyStrLt_asymm h]
  simp [hne]

/-- C7 (amended): in the pure reconciler the result assigns dense ranks
1..N; groups present in the input map keep their (previous rank, name)
lexicographic order; groups absent from the input map are appended in
name-sorted order, each ranked after every present group.  On a load that
discovers new groups, however, the discovered groups are first merged into
the persisted map with their derived (prefix/position) ranks and the
merged map is then reconciled, so a newly seen group is ordered by its
derived rank rather than appended after the already-known groups. -/
theorem claim_C7_reconcile_structure (M : List (String × Int)) (G : List String)
    (hG : G.Nodup) :
    ((_normalize_order_map M G).map Prod.snd = intsFrom 1 G.length)
    ∧ (∀ A B : String, ∀ a b : Int, A ∈ G → B ∈ G →
        dictLookup M A = some a → dictLookup M B = some b →
        (a < b ∨ (a = b ∧ pyStrLt A B = true)) →
        ∃ rA rB : Int, dictLookup (_normalize_order_map M G) A = some rA ∧
          dictLookup (_normalize_order_map M G) B = some rB ∧ rA < rB)
    ∧ (∀ A B : String, ∀ b : Int, A ∈ G → B ∈ G →
        dictLookup M A = none → dictLookup M B = some b →
        ∃ rB rA : Int, dictLookup (_normalize_order_map M G) B = some rB ∧
          dictLookup (_normalize_order_map M G) A = some rA ∧ rB < rA)
    ∧ (∀ A B : String, A ∈ G → B ∈ G →
        dictLookup M A = none → dictLookup M B = none → pyStrLt A B = true →
        ∃ rA rB : Int, dictLookup (_normalize_order_map M G) A = some rA ∧
          dictLookup (_normalize_order_map M G) B = some rB ∧ rA < rB)
    ∧ (∀ existing derived : List (String × Int), existing ≠ [] →
        missingNames existing (derived.map Prod.fst) ≠ [] →
        loadOrderUpdate existing derived =
          _normalize_order_map
            (existing ++ (missingNames existing (derived.map Prod.fst)).map
              (fun n => (n, (dictLookup derived n).getD 0)))
            ((existing ++ (missingNames existing (derived.map Prod.fst)).map
              (fun n => (n, (dictLookup derived n).getD 0))).map Prod.fst)) := by
  refine ⟨normalize_map_snd M G, ?_, ?_, ?_, ?_⟩
  · intro A B a b hA hB hMA hMB hlex
    have hne : ((A, a) : String × Int) ≠ (B, b) := by
      intro he
      rw [Prod.mk.injEq] at he
      rcases hlex with h | ⟨h, hlt⟩
      · omega
      · rw [he.1] at hlt
        rw [pyStrLt_irrefl] at hlt
        exact absurd hlt (by simp)
    have hnr : ¬ (le1 ((B, b) : String × Int) (A, a) = true) := by
      rw [le1_iff]
      simp only
      rcases hlex with h | ⟨h, hlt⟩
      · push_neg
        constructor
        · omega
        · intro he
          omega
      · push_neg
        constructor
        · omega
        · intro _
          rw [pyStrLt_not_le hlt]
          simp
    exact ranks_lt_of_appended M G hG (known_mem_appended hA hMA)
      (known_mem_appended hB hMB) hne hnr
  · intro A B b hA hB hMA hMB
    obtain ⟨vA, hvA, hgt⟩ := missing_mem_appended hA hMA
    have hBk : ((B, b) : String × Int) ∈ pySort le1 (knownPairs M G) :=
      (pySort_perm le1 _).mem_iff.mpr (mem_knownPairs.mpr ⟨hB, hMB⟩)
    have hble : b ≤ maxValDefault ((pySort le1 (knownPairs M G)).map Prod.snd) :=
      maxValDefault_ge _ b (List.mem_map.mpr ⟨(B, b), hBk, rfl⟩)
    have hne : ((B, b) : String × Int) ≠ (A, vA) := by
      intro he
      rw [Prod.mk.injEq] at he
      rw [he.1, hMA] at hMB
      exact Option.noConfusion hMB
    have hnr : ¬ (le1 ((A, vA) : String × Int) (B, b) = true) := by
      rw [le1_iff]
      simp only
      push_neg
      constructor
      · omega
      · intro he
        omega
    exact ranks_lt_of_appended M G hG (List.mem_append_left _ hBk) hvA hne hnr
  · intro A B hA hB hMA hMB hAB
    have hAm : A ∈ pySort leName (missingNames M G) := by
      refine (pySort_perm leName _).mem_iff.mpr ?_
      rw [missingNames, List.mem_filter]
      exact ⟨hA, by rw [hMA]; rfl⟩
    have hBm : B ∈ pySort leName (missingNames M G) := by
      refine (pySort_perm leName _).mem_iff.mpr ?_
      rw [missingNames, List.mem_filter]
      exact ⟨hB, by rw [hMB]; rfl⟩
    have hneAB : A ≠ B := by
      intro he
      subst he
      rw [pyStrLt_irrefl] at hAB
      exact absurd hAB (by simp)
    have hnrName : ¬ (leName B A = true) := by
      rw [leName, pyStrLt_not_le hAB]
      simp
    obtain ⟨s, t₁, t₂, hdec⟩ := before_of_pairwise
      (sorted_pySort leName_trans leName_total (missingNames M G)) hAm hBm hneAB hnrName
    obtain ⟨vA, vB, hvA, hvB, hlt⟩ := rankFrom_decomp_lt
      (maxValDefault ((pySort le1 (knownPairs M G)).map Prod.snd)) s t₁ t₂ A B
    rw [← hdec] at hvA hvB
    have hne : ((A, vA) : String × Int) ≠ (B, vB) := by
      intro he
      rw [Prod.mk.injEq] at he
      exact hneAB he.1
    have hnr : ¬ (le1 ((B, vB) : String × Int) (A, vA) = true) := by
      rw [le1_iff]
      simp only
      push_neg
      constructor
      · omega
      · intro he
        omega
    exact ranks_lt_of_appended M G hG (List.mem_append_right _ hvA)
      (List.mem_append_right _ hvB) hne hnr
  · intro existing derived h1 h2
    rw [missingNames] at h2
    simp only [loadOrderUpdate, if_neg h1, if_neg h2, missingNames]

/-- Witness for C7 (amended), checking denseness of the reconciled ranks
at a concrete map and group set. -/
theorem claim_C7_reconcile_structure_witness :
    (["a", "b"] : List String).Nodup ∧
      (_normalize_order_map [("b", 7)] ["a", "b"]).map Prod.snd =
        intsFrom 1 (["a", "b"] : List String).length :=
  ⟨by decide, (claim_C7_reconcile_structure [("b", 7)] ["a", "b"] (by decide)).1⟩

/-! Round trip through the phonebook file: `save_contacts` then
`load_contacts`. -/

theorem digitChar_not_space {d : Nat} (hd : d ≤ 9) :
    pyIsSpace (Nat.digitChar d) = false := by
  interval_cases d <;> decide

theorem digitChar_isDigit {d : Nat} (hd : d ≤ 9) : (Nat.digitChar d).isDigit = true := by
  interval_cases d <;> decide

theorem digitVal_digitChar {d : Nat} (hd : d ≤ 9) : digitVal (Nat.digitChar d) = d := by
  interval_cases d <;> decide

theorem string_mk_data (s : String) : String.mk s.data = s := by
  cases s
  rfl

theorem cleanGroupName_stripped {g : String} (h : cleanGroupName g = true) :
    pyStripList g.data = g.data := by
  rw [cleanGroupName, Bool.and_eq_true, Bool.and_eq_true] at h
  obtain ⟨⟨h1, h2⟩, _⟩ := h
  rw [decide_eq_true_eq] at h1 h2
  rw [pyStripList, h1, h2, List.reverse_reverse]

theorem split_eq_of_dropWhile {name : String} {d1 d2 c : Char} {rest : List Char}
    (h : name.data.dropWhile pyIsSpace = d1 :: d2 :: c :: rest) :
    _split_prefixed_group name =
      if d1.isDigit && d2.isDigit && c = '.' && tailAfterDot rest then
        (String.mk (pyStripList rest), some (10 * digitVal d1 + digitVal d2))
      else (name, none) := by
  unfold _split_prefixed_group
  rw [h]

/-- Stripping the two-digit prefix written by `save_contacts` recovers a
clean group name exactly. -/
theorem split_twoDigitTag {g : String} (hg : cleanGroupName g = true) {i : Nat}
    (hi : i ≤ 99) : _split_prefixed_group (twoDigitTag i ++ g) = (g, some i) := by
  have hc := hg
  rw [cleanGroupName, Bool.and_eq_true, Bool.and_eq_true] at hc
  obtain ⟨⟨hc1, hc2⟩, hc3⟩ := hc
  rw [decide_eq_true_eq] at hc1 hc2
  rw [Bool.not_eq_true'] at hc3
  have hd1 : i / 10 ≤ 9 := by omega
  have hd2 : i % 10 ≤ 9 := by omega
  have hdrop : (twoDigitTag i ++ g).data.dropWhile pyIsSpace =
      Nat.digitChar (i / 10) :: Nat.digitChar (i % 10) :: '.' :: ' ' :: g.data := by
    have hdata : (twoDigitTag i ++ g).data =
        Nat.digitChar (i / 10) :: Nat.digitChar (i % 10) :: '.' :: ' ' :: g.data := by
      rw [String.data_append, twoDigitTag]
      rfl
    rw [hdata, List.dropWhile_cons, digitChar_not_space hd1]
    simp
  have hdw : (' ' :: g.data).dropWhile pyIsSpace = g.data := by
    rw [List.dropWhile_cons, if_pos (show pyIsSpace ' ' = true from rfl), hc1]
  have hnc : ((g.data).dropLast).contains '\n' = false := by
    rw [Bool.eq_false_iff]
    intro hcon
    have hmem : '\n' ∈ g.data.dropLast := List.elem_iff.mp hcon
    have : '\n' ∈ g.data := (List.dropLast_sublist g.data).subset hmem
    rw [Bool.eq_false_iff] at hc3
    exact hc3 (List.elem_iff.mpr this)
  have htail : tailAfterDot (' ' :: g.data) = true := by
    show (pyIsSpace ' ' && !(((' ' :: g.data).dropWhile pyIsSpace).dropLast).contains '\n') = true
    rw [hdw, hnc]
    rfl
  rw [split_eq_of_dropWhile hdrop, digitChar_isDigit hd1, digitChar_isDigit hd2, htail]
  have hcond : ((true && true && decide (('.' : Char) = '.')) && true) = true := by decide
  rw [if_pos ?_]
  · have hstrip : pyStripList (' ' :: g.data) = g.data := by
      rw [pyStripList, hdw, hc2, List.reverse_reverse]
    rw [hstrip, string_mk_data, digitVal_digitChar hd1, digitVal_digitChar hd2]
    have : 10 * (i / 10) + i % 10 = i := by omega
    rw [this]
  · simp

theorem addToGroup_flat_perm (gs : List (String × List Contact)) (k : String) (c : Contact) :
    ((addToGroup gs k c).flatMap Prod.snd).Perm (c :: gs.flatMap Prod.snd) := by
  induction gs with
  | nil => simp [addToGroup]
  | cons p rest ih =>
    by_cases h : p.1 = k
    · rw [addToGroup, if_pos h, List.flatMap_cons, List.flatMap_cons]
      rw [List.append_assoc]
      exact List.perm_middle
    · rw [addToGroup, if_neg h, List.flatMap_cons, List.flatMap_cons]
      refine ((List.Perm.append_left p.2 ih).trans ?_)
      exact List.perm_middle

theorem addToGroup_fst_mem {gs : List (String × List Contact)} {k : String} {c : Contact}
    (h : k ∈ gs.map Prod.fst) :
    (addToGroup gs k c).map Prod.fst = gs.map Prod.fst := by
  induction gs with
  | nil => simp at h
  | cons p rest ih =>
    by_cases hp : p.1 = k
    · rw [addToGroup, if_pos hp]
      simp
    · rw [List.map_cons, List.mem_cons] at h
      rcases h with h | h
      · exact absurd h.symm hp
      · rw [addToGroup, if_neg hp, List.map_cons, List.map_cons, ih h]

theorem addToGroup_fst_new {gs : List (String × List Contact)} {k : String} {c : Contact}
    (h : k ∉ gs.map Prod.fst) :
    (addToGroup gs k c).map Prod.fst = gs.map Prod.fst ++ [k] := by
  induction gs with
  | nil => rfl
  | cons p rest ih =>
    have hp : p.1 ≠ k := by
      intro he
      exact h (by rw [List.map_cons, he]; exact List.mem_cons_self _ _)
    have h2 : k ∉ rest.map Prod.fst := fun hm =>
      h (by rw [List.map_cons]; exact List.mem_cons_of_mem _ hm)
    rw [addToGroup, if_neg hp, List.map_cons, List.map_cons, ih h2, List.cons_append]

theorem addToGroup_inv {gs : List (String × List Contact)} {k : String} {c : Contact}
    (hinv : ∀ p ∈ gs, ∀ x ∈ p.2, x.group = p.1) (hc : c.group = k) :
    ∀ p ∈ addToGroup gs k c, ∀ x ∈ p.2, x.group = p.1 := by
  induction gs with
  | nil =>
    intro p hp x hx
    rw [addToGroup] at hp
    rcases List.mem_cons.mp hp with rfl | hp2
    · rcases List.mem_cons.mp hx with rfl | hx2
      · exact hc
      · simp at hx2
    · simp at hp2
  | cons q rest ih =>
    intro p hp x hx
    by_cases hq : q.1 = k
    · rw [addToGroup, if_pos hq] at hp
      rcases List.mem_cons.mp hp with rfl | hp2
      · rcases List.mem_append.mp hx with hx2 | hx2
        · exact hinv q (List.mem_cons_self q rest) x hx2
        · rcases List.mem_cons.mp hx2 with rfl | hx3
          · rw [hc, hq]
          · simp at hx3
      · exact hinv p (List.mem_cons_of_mem _ hp2) x hx
    · rw [addToGroup, if_neg hq] at hp
      rcases List.mem_cons.mp hp with rfl | hp2
      · exact hinv p (List.mem_cons_self p rest) x hx
      · exact ih (fun r hr => hinv r (List.mem_cons_of_mem _ hr)) p hp2 x hx

theorem flatMap_lookup_keys (gs : List (String × List Contact))
    (hnd : (gs.map Prod.fst).Nodup) :
    (gs.map Prod.fst).flatMap (fun n => (dictLookup gs n).getD []) =
      gs.flatMap Prod.snd := by
  induction gs with
  | nil => rfl
  | cons p rest ih =>
    rw [List.map_cons, List.nodup_cons] at hnd
    rw [List.map_cons, List.flatMap_cons, List.flatMap_cons]
    have hhead : dictLookup (p :: rest) p.1 = some p.2 := by
      rw [dictLookup]
      simp
    rw [hhead]
    have htail : (rest.map Prod.fst).flatMap (fun n => (dictLookup (p :: rest) n).getD []) =
        (rest.map Prod.fst).flatMap (fun n => (dictLookup rest n).getD []) := by
      apply List.flatMap_congr
      intro n hn
      have hne : p.1 ≠ n := fun he => hnd.1 (he ▸ hn)
      rw [dictLookup, if_neg hne]
    rw [htail, ih hnd.2]
    rfl

theorem bucketGroups_cons_eq (c : Contact) (rest : List Contact)
    (acc : List (String × List Contact)) :
    bucketGroups (c :: rest) acc =
      match _validate_lengths c with
      | .error e => .error e
      | .ok _ =>
        if (dictLookup acc c.group).isSome then bucketGroups rest (addToGroup acc c.group c)
        else if acc.length ≥ MAX_GROUPS then .error "Превышено число групп (50)"
        else bucketGroups rest (addToGroup acc c.group c) := rfl

theorem bucketGroups_valid : ∀ {l : List Contact} {acc gs : List (String × List Contact)},
    bucketGroups l acc = .ok gs → ∀ c ∈ l, _validate_lengths c = .ok () := by
  intro l
  induction l with
  | nil => intro acc gs _ c hc; simp at hc
  | cons c rest ih =>
    intro acc gs h x hx
    rw [bucketGroups_cons_eq] at h
    split at h
    · exact Except.noConfusion h
    · rename_i u hu
      rcases List.mem_cons.mp hx with rfl | hx2
      · cases u
        exact hu
      · split at h
        · exact ih h x hx2
        · split at h
          · exact Except.noConfusion h
          · exact ih h x hx2

theorem bucketGroups_flat_perm : ∀ {l : List Contact} {acc gs : List (String × List Contact)},
    bucketGroups l acc = .ok gs →
    (gs.flatMap Prod.snd).Perm (acc.flatMap Prod.snd ++ l) := by
  intro l
  induction l with
  | nil =>
    intro acc gs h
    have hag : acc = gs := by injection h
    subst hag
    rw [List.append_nil]
  | cons c rest ih =>
    intro acc gs h
    rw [bucketGroups_cons_eq] at h
    split at h
    · exact Except.noConfusion h
    · have hstep : ∀ h2 : bucketGroups rest (addToGroup acc c.group c) = .ok gs,
          (gs.flatMap Prod.snd).Perm (acc.flatMap Prod.snd ++ c :: rest) := by
        intro h2
        refine (ih h2).trans ?_
        refine (((addToGroup_flat_perm acc c.group c).append_right rest).trans ?_)
        exact List.perm_middle.symm
      split at h
      · exact hstep h
      · split at h
        · exact Except.noConfusion h
        · exact hstep h

theorem bucketGroups_keys : ∀ {l : List Contact} {acc gs : List (String × List Contact)},
    bucketGroups l acc = .ok gs →
    ((acc.map Prod.fst).Nodup → (gs.map Prod.fst).Nodup)
    ∧ (gs.map Prod.fst).toFinset =
        (acc.map Prod.fst).toFinset ∪ (l.map Contact.group).toFinset
    ∧ gs.length ≤ max acc.length MAX_GROUPS := by
  intro l
  induction l with
  | nil =>
    intro acc gs h
    have hag : acc = gs := by injection h
    subst hag
    exact ⟨id, by simp, le_max_left _ _⟩
  | cons c rest ih =>
    intro acc gs h
    rw [bucketGroups_cons_eq] at h
    split at h
    · exact Except.noConfusion h
    · split at h
      · rename_i hk
        have hmem : c.group ∈ acc.map Prod.fst := dictLookup_isSome_iff.mp hk
        have hfst := addToGroup_fst_mem (c := c) hmem
        obtain ⟨ihn, ihs, ihl⟩ := ih h
        refine ⟨?_, ?_, ?_⟩
        · intro hnd
          exact ihn (by rw [hfst]; exact hnd)
        · rw [ihs, hfst, List.map_cons, List.toFinset_cons]
          have hcg : c.group ∈ (acc.map Prod.fst).toFinset := List.mem_toFinset.mpr hmem
          ext x
          simp only [Finset.mem_union, Finset.mem_insert]
          constructor
          · rintro (hx | hx)
            · exact Or.inl hx
            · exact Or.inr (Or.inr hx)
          · rintro (hx | rfl | hx)
            · exact Or.inl hx
            · exact Or.inl hcg
            · exact Or.inr hx
        · have hlen : (addToGroup acc c.group c).length = acc.length := by
            have := congrArg List.length hfst
            rwa [List.length_map, List.length_map] at this
          rwa [hlen] at ihl
      · split at h
        · exact Except.noConfusion h
        · rename_i hk hcap
          have hnotin : c.group ∉ acc.map Prod.fst := by
            intro hmem
            exact hk (dictLookup_isSome_iff.mpr hmem)
          have hfst := addToGroup_fst_new (c := c) hnotin
          obtain ⟨ihn, ihs, ihl⟩ := ih h
          refine ⟨?_, ?_, ?_⟩
          · intro hnd
            refine ihn ?_
            rw [hfst, List.nodup_append]
            exact ⟨hnd, List.nodup_singleton _, by
              intro a ha hb
              rw [List.mem_singleton] at hb
              subst hb
              exact hnotin ha⟩
          · rw [ihs, hfst, List.map_cons, List.toFinset_cons, List.toFinset_append]
            ext x
            simp only [Finset.mem_union, Finset.mem_insert, List.toFinset_cons,
              List.toFinset_nil, Finset.mem_singleton, insert_emptyc_eq]
            constructor
            · rintro ((hx | rfl) | hx)
              · exact Or.inl hx
              · exact Or.inr (Or.inl rfl)
              · exact Or.inr (Or.inr hx)
            · rintro (hx | rfl | hx)
              · exact Or.inl (Or.inl hx)
              · exact Or.inl (Or.inr rfl)
              · exact Or.inr hx
          · have hlen : (addToGroup acc c.group c).length = acc.length + 1 := by
              have h0 := congrArg List.length hfst
              simp only [List.length_map, List.length_append,
                List.length_singleton] at h0
              simpa using h0
            rw [hlen] at ihl
            have hcap2 : acc.length < MAX_GROUPS := by omega
            refine le_trans ihl ?_
            have h1 : max (acc.length + 1) MAX_GROUPS = MAX_GROUPS :=
              Nat.max_eq_right (by omega)
            have h2 : MAX_GROUPS ≤ max acc.length MAX_GROUPS := le_max_right _ _
            rw [h1]
            exact h2

theorem bucketGroups_ok_of : ∀ {l : List Contact} (acc : List (String × List Contact)),
    (∀ c ∈ l, _validate_lengths c = .ok ()) →
    (acc.map Prod.fst).Nodup →
    (acc.map Prod.fst ++ l.map Contact.group).toFinset.card ≤ MAX_GROUPS →
    ∃ gs, bucketGroups l acc = .ok gs := by
  intro l
  induction l with
  | nil => intro acc _ _ _; exact ⟨acc, rfl⟩
  | cons c rest ih =>
    intro acc hval hnd hcard
    have hv := hval c (List.mem_cons_self c rest)
    rw [List.toFinset_append, List.map_cons, List.toFinset_cons] at hcard
    show ∃ gs,
      (match _validate_lengths c with
       | .error e => (Except.error e : Except String (List (String × List Contact)))
       | .ok _ =>
         if (dictLookup acc c.group).isSome then bucketGroups rest (addToGroup acc c.group c)
         else if acc.length ≥ MAX_GROUPS then Except.error "Превышено число групп (50)"
         else bucketGroups rest (addToGroup acc c.group c)) = .ok gs
    rw [hv]
    by_cases hk : (dictLookup acc c.group).isSome
    · rw [if_pos hk]
      have hmem : c.group ∈ acc.map Prod.fst := dictLookup_isSome_iff.mp hk
      have hfst := addToGroup_fst_mem (c := c) hmem
      refine ih _ (fun x hx => hval x (List.mem_cons_of_mem _ hx)) (by rw [hfst]; exact hnd) ?_
      rw [List.toFinset_append, hfst]
      refine le_trans (Finset.card_le_card ?_) hcard
      intro x hx
      rcases Finset.mem_union.mp hx with hx | hx
      · exact Finset.mem_union_left _ hx
      · exact Finset.mem_union_right _ (Finset.mem_insert_of_mem hx)
    · have hnotin : c.group ∉ acc.map Prod.fst := fun hm => hk (dictLookup_isSome_iff.mpr hm)
      have hlt : acc.length < MAX_GROUPS := by
        have hsub : insert c.group (acc.map Prod.fst).toFinset ⊆
            (acc.map Prod.fst).toFinset ∪ insert c.group (rest.map Contact.group).toFinset := by
          intro x hx
          rcases Finset.mem_insert.mp hx with rfl | hx
          · exact Finset.mem_union_right _ (Finset.mem_insert_self _ _)
          · exact Finset.mem_union_left _ hx
        have hcins : (insert c.group (acc.map Prod.fst).toFinset).card =
            (acc.map Prod.fst).toFinset.card + 1 :=
          Finset.card_insert_of_not_mem (fun hm => hnotin (List.mem_toFinset.mp hm))
        have hcacc : (acc.map Prod.fst).toFinset.card = acc.length := by
          rw [List.toFinset_card_of_nodup hnd, List.length_map]
        have := Finset.card_le_card hsub
        omega
      rw [if_neg hk, if_neg (by omega)]
      have hfst := addToGroup_fst_new (c := c) hnotin
      refine ih _ (fun x hx => hval x (List.mem_cons_of_mem _ hx)) ?_ ?_
      · rw [hfst, List.nodup_append]
        refine ⟨hnd, List.nodup_singleton _, ?_⟩
        intro a ha hb
        rw [List.mem_singleton] at hb
        subst hb
        exact hnotin ha
      · rw [List.toFinset_append, hfst, List.toFinset_append]
        refine le_trans (Finset.card_le_card ?_) hcard
        intro x hx
        rcases Finset.mem_union.mp hx with hx | hx
        · rcases Finset.mem_union.mp hx with hx | hx
          · exact Finset.mem_union_left _ hx
          · rw [List.toFinset_cons, List.toFinset_nil] at hx
            rcases Finset.mem_insert.mp hx with rfl | hx
            · exact Finset.mem_union_right _ (Finset.mem_insert_self _ _)
            · exact absurd hx (Finset.not_mem_empty x)
        · exact Finset.mem_union_right _ (Finset.mem_insert_of_mem hx)

theorem save_contacts_none_ok {o : List (String × Int)} {contacts : List Contact}
    {gs : List (String × List Contact)} (hb : bucketGroups contacts [] = .ok gs) :
    save_contacts o contacts none = .ok (saveWithBuckets o gs) := by
  unfold save_contacts
  rw [hb]
  rfl

theorem save_contacts_some_ok {o : List (String × Int)} {contacts : List Contact}
    {ps : List String} {gs gs2 : List (String × List Contact)}
    (hb : bucketGroups contacts [] = .ok gs) (hp : addPreserved gs ps = .ok gs2) :
    save_contacts o contacts (some ps) = .ok (saveWithBuckets o gs2) := by
  unfold save_contacts
  rw [hb]
  show (addPreserved gs ps).bind _ = _
  rw [hp]
  rfl

theorem save_contacts_bucket_error {o : List (String × Int)} {contacts : List Contact}
    {pres : Option (List String)} {e : String}
    (hb : bucketGroups contacts [] = .error e) :
    save_contacts o contacts pres = .error e := by
  unfold save_contacts
  rw [hb]
  rfl

theorem save_contacts_preserved_error {o : List (String × Int)} {contacts : List Contact}
    {ps : List String} {gs : List (String × List Contact)} {e : String}
    (hb : bucketGroups contacts [] = .ok gs) (hp : addPreserved gs ps = .error e) :
    save_contacts o contacts (some ps) = .error e := by
  unfold save_contacts
  rw [hb]
  show (addPreserved gs ps).bind _ = _
  rw [hp]
  rfl

theorem save_contacts_ok_inv {o : List (String × Int)} {contacts : List Contact}
    {pres : Option (List String)} {x : List Menu × List (String × Int)}
    (h : save_contacts o contacts pres = .ok x) :
    ∃ gs gs2, bucketGroups contacts [] = .ok gs ∧
      (match pres with
       | some ps => addPreserved gs ps
       | none => Except.ok gs) = .ok gs2 ∧ x = saveWithBuckets o gs2 := by
  cases hb : bucketGroups contacts [] with
  | error e =>
    rw [save_contacts_bucket_error hb] at h
    exact Except.noConfusion h
  | ok gs =>
    cases pres with
    | none =>
      rw [save_contacts_none_ok hb] at h
      refine ⟨gs, gs, rfl, rfl, ?_⟩
      injection h
      rename_i h2
      exact h2.symm
    | some ps =>
      cases hp : addPreserved gs ps with
      | error e =>
        rw [save_contacts_preserved_error hb hp] at h
        exact Except.noConfusion h
      | ok gs2 =>
        rw [save_contacts_some_ok hb hp] at h
        refine ⟨gs, gs2, rfl, hp, ?_⟩
        injection h
        rename_i h2
        exact h2.symm

theorem bucketGroups_inv : ∀ {l : List Contact} {acc gs : List (String × List Contact)},
    bucketGroups l acc = .ok gs → (∀ p ∈ acc, ∀ x ∈ p.2, x.group = p.1) →
    ∀ p ∈ gs, ∀ x ∈ p.2, x.group = p.1 := by
  intro l
  induction l with
  | nil =>
    intro acc gs h hinv
    have hag : acc = gs := by injection h
    subst hag
    exact hinv
  | cons c rest ih =>
    intro acc gs h hinv
    rw [bucketGroups_cons_eq] at h
    split at h
    · exact Except.noConfusion h
    · split at h
      · exact ih h (addToGroup_inv hinv rfl)
      · split at h
        · exact Except.noConfusion h
        · exact ih h (addToGroup_inv hinv rfl)

theorem unitsWith_map_tup (g : String) : ∀ (us : List PhoneUnit) (cid : Nat),
    (unitsWith g us cid).map
        (fun c => (c.group, c.name, c.office, c.mobile, c.other, c.photo)) =
      us.map (fun u => (g, u.name, u.phone1, u.phone2, u.phone3, u.default_photo)) := by
  intro us
  induction us with
  | nil => intro _; rfl
  | cons u rest ih =>
    intro cid
    rw [unitsWith, List.map_cons, List.map_cons, ih (cid + 1)]

theorem unitsWith_length (g : String) : ∀ (us : List PhoneUnit) (cid : Nat),
    (unitsWith g us cid).length = us.length := by
  intro us
  induction us with
  | nil => intro _; rfl
  | cons u rest ih =>
    intro cid
    rw [unitsWith, List.length_cons, List.length_cons, ih (cid + 1)]

theorem unitsWith_map_id (g : String) : ∀ (us : List PhoneUnit) (cid : Nat),
    (unitsWith g us cid).map Contact.contact_id =
      (List.range' cid us.length).map some := by
  intro us
  induction us with
  | nil => intro _; rfl
  | cons u rest ih =>
    intro cid
    rw [unitsWith, List.map_cons, List.length_cons, List.range'_succ, List.map_cons,
      ih (cid + 1)]

theorem loadUnits_map_tup : ∀ (menus : List Menu) (cid : Nat),
    (loadUnits menus cid).map
        (fun c => (c.group, c.name, c.office, c.mobile, c.other, c.photo)) =
      menus.flatMap (fun m => m.units.map
        (fun u => ((_split_prefixed_group m.name).1,
          u.name, u.phone1, u.phone2, u.phone3, u.default_photo))) := by
  intro menus
  induction menus with
  | nil => intro _; rfl
  | cons m ms ih =>
    intro cid
    rw [loadUnits, List.map_append, List.flatMap_cons, unitsWith_map_tup,
      ih (cid + m.units.length)]

theorem loadUnits_map_id : ∀ (menus : List Menu) (cid : Nat),
    (loadUnits menus cid).map Contact.contact_id =
      (List.range' cid (loadUnits menus cid).length).map some := by
  intro menus
  induction menus with
  | nil => intro _; rfl
  | cons m ms ih =>
    intro cid
    rw [loadUnits, List.map_append, unitsWith_map_id, ih (cid + m.units.length),
      ← List.map_append, List.length_append, unitsWith_length]
    have hr := List.range'_append cid m.units.length
      (loadUnits ms (cid + m.units.length)).length 1
    simp only [one_mul] at hr
    rw [hr, Nat.add_comm (loadUnits ms (cid + m.units.length)).length m.units.length]

theorem mkMenus_flatMap_tup (gs : List (String × List Contact))
    (hinv : ∀ p ∈ gs, ∀ x ∈ p.2, x.group = p.1) :
    ∀ (names : List String) (idx : Nat), (∀ n ∈ names, cleanGroupName n = true) →
      idx + names.length ≤ 100 →
      (mkMenus gs names idx).flatMap (fun m => m.units.map
        (fun u => ((_split_prefixed_group m.name).1,
          u.name, u.phone1, u.phone2, u.phone3, u.default_photo))) =
      names.flatMap (fun n => ((dictLookup gs n).getD []).map
        (fun c => (c.group, c.name, c.office, c.mobile, c.other, c.photo))) := by
  intro names
  induction names with
  | nil => intro idx _ _; rfl
  | cons n rest ih =>
    intro idx hclean hbound
    rw [List.length_cons] at hbound
    have hidx : idx ≤ 99 := by omega
    have hsplit := split_twoDigitTag (hclean n (List.mem_cons_self n rest)) hidx
    simp only [mkMenus, List.flatMap_cons]
    congr 1
    · rw [hsplit, List.map_map]
      apply List.map_congr_left
      intro c hc
      have hcg : c.group = n := by
        cases hlk : dictLookup gs n with
        | none =>
          rw [hlk] at hc
          simp at hc
        | some cs =>
          rw [hlk] at hc
          simp only [Option.getD_some] at hc
          exact hinv (n, cs) (dictLookup_mem hlk) c hc
      simp only [Function.comp_apply, contactToUnit, hcg]
    · exact ih (idx + 1) (fun x hx => hclean x (List.mem_cons_of_mem _ hx)) (by omega)

/-- Core round-trip fact: writing validated buckets and re-reading them
preserves the multiset of full contact tuples, provided group names are
clean. -/
theorem save_load_tup6 {o : List (String × Int)} {contacts : List Contact}
    {gs : List (String × List Contact)} (hb : bucketGroups contacts [] = .ok gs)
    (hclean : ∀ c ∈ contacts, cleanGroupName c.group = true) :
    ((load_contacts (saveWithBuckets o gs).1).map
        (fun c => (c.group, c.name, c.office, c.mobile, c.other, c.photo))).Perm
      (contacts.map (fun c => (c.group, c.name, c.office, c.mobile, c.other, c.photo))) := by
  have hkeys := bucketGroups_keys hb
  have hnd : (gs.map Prod.fst).Nodup := hkeys.1 (by simp)
  have hset : (gs.map Prod.fst).toFinset = (contacts.map Contact.group).toFinset := by
    have := hkeys.2.1
    simpa using this
  have hlen50 : gs.length ≤ MAX_GROUPS := by
    have := hkeys.2.2
    simpa using this
  have hflat : (gs.flatMap Prod.snd).Perm contacts := by
    simpa using bucketGroups_flat_perm hb
  have hinv : ∀ p ∈ gs, ∀ x ∈ p.2, x.group = p.1 :=
    bucketGroups_inv hb (by intro p hp; simp at hp)
  have hordperm : (pySort (leRank (_normalize_order_map o (gs.map Prod.fst)))
      (gs.map Prod.fst)).Perm (gs.map Prod.fst) := pySort_perm _ _
  have hcleanord : ∀ n ∈ pySort (leRank (_normalize_order_map o (gs.map Prod.fst)))
      (gs.map Prod.fst), cleanGroupName n = true := by
    intro n hn
    have h1 : n ∈ gs.map Prod.fst := hordperm.mem_iff.mp hn
    have h2 : n ∈ contacts.map Contact.group := by
      have := List.mem_toFinset.mpr h1
      rw [hset] at this
      exact List.mem_toFinset.mp this
    obtain ⟨c, hc, rfl⟩ := List.mem_map.mp h2
    exact hclean c hc
  have hbound : 1 + (pySort (leRank (_normalize_order_map o (gs.map Prod.fst)))
      (gs.map Prod.fst)).length ≤ 100 := by
    have h1 := hordperm.length_eq
    rw [List.length_map] at h1
    rw [h1]
    have : MAX_GROUPS = 50 := rfl
    omega
  show ((loadUnits (mkMenus gs (pySort (leRank (_normalize_order_map o (gs.map Prod.fst)))
      (gs.map Prod.fst)) 1) 0).map
        (fun c => (c.group, c.name, c.office, c.mobile, c.other, c.photo))).Perm
    (contacts.map (fun c => (c.group, c.name, c.office, c.mobile, c.other, c.photo)))
  rw [loadUnits_map_tup, mkMenus_flatMap_tup gs hinv _ 1 hcleanord hbound]
  refine (List.Perm.flatMap_right _ hordperm).trans ?_
  rw [← List.map_flatMap, flatMap_lookup_keys gs hnd]
  exact hflat.map _

/-- C1 (amended): saving a validated contact list (at most 50 distinct
groups) whose group names are clean — no leading/trailing whitespace and
no newline — and then loading yields the same multiset of (group, name,
office, mobile, other) tuples, and loading assigns ids 0..N-1 in file
encounter order.  (A group name with, e.g., trailing whitespace passes
validation but is altered by the prefix-strip on load, so the unamended
claim fails; see the counterexample.) -/
theorem claim_C1_save_load_roundtrip (o : List (String × Int)) (contacts : List Contact)
    (hval : ∀ c ∈ contacts, _validate_lengths c = .ok ())
    (hcard : (contacts.map Contact.group).toFinset.card ≤ MAX_GROUPS)
    (hclean : ∀ c ∈ contacts, cleanGroupName c.group = true) :
    ∃ menus order2, save_contacts o contacts none = .ok (menus, order2) ∧
      ((load_contacts menus).map
          (fun c => (c.group, c.name, c.office, c.mobile, c.other))).Perm
        (contacts.map (fun c => (c.group, c.name, c.office, c.mobile, c.other))) ∧
      (load_contacts menus).map Contact.contact_id =
        (List.range contacts.length).map some := by
  obtain ⟨gs, hb⟩ := bucketGroups_ok_of [] hval (by simp) (by simpa using hcard)
  have h6 := save_load_tup6 (o := o) hb hclean
  refine ⟨(saveWithBuckets o gs).1, (saveWithBuckets o gs).2, ?_, ?_, ?_⟩
  · rw [save_contacts_none_ok hb]
  · have h5 := h6.map (fun t => (t.1, t.2.1, t.2.2.1, t.2.2.2.1, t.2.2.2.2.1))
    rw [List.map_map, List.map_map] at h5
    exact h5
  · have hlen : (load_contacts (saveWithBuckets o gs).1).length = contacts.length := by
      have := h6.length_eq
      rwa [List.length_map, List.length_map] at this
    have hid : (load_contacts (saveWithBuckets o gs).1).map Contact.contact_id =
        (List.range' 0 (load_contacts (saveWithBuckets o gs).1).length).map some :=
      loadUnits_map_id (saveWithBuckets o gs).1 0
    rw [hid, hlen, ← List.range_eq_range']

/-- C1 counterexample: the contact group "A " (trailing space) passes
validation, but saving writes menu name "01. A " and loading strips it to
"A", so the loaded (group, name, office, mobile, other) multiset differs
from the saved one. -/
theorem claim_C1_counterexample :
    (∀ c ∈ [Contact.mk "A " "n" "" "" "" "" none], _validate_lengths c = .ok ()) ∧
    save_contacts [] [Contact.mk "A " "n" "" "" "" "" none] none =
      .ok ([Menu.mk "01. A " [PhoneUnit.mk "n" "" "" "" ""]], [("A ", 1)]) ∧
    ¬ (((load_contacts [Menu.mk "01. A " [PhoneUnit.mk "n" "" "" "" ""]]).map
          (fun c => (c.group, c.name, c.office, c.mobile, c.other))).Perm
        ([Contact.mk "A " "n" "" "" "" "" none].map
          (fun c => (c.group, c.name, c.office, c.mobile, c.other)))) := by
  refine ⟨by decide, by decide, by decide⟩

/-- Witness for C1 (amended) at a concrete one-contact phonebook. -/
theorem claim_C1_save_load_roundtrip_witness :
    (∀ c ∈ [Contact.mk "G" "nm" "12" "" "" "" none], _validate_lengths c = .ok ()) ∧
    (([Contact.mk "G" "nm" "12" "" "" "" none].map Contact.group).toFinset.card
      ≤ MAX_GROUPS) ∧
    (∀ c ∈ [Contact.mk "G" "nm" "12" "" "" "" none], cleanGroupName c.group = true) ∧
    (∃ menus order2,
      save_contacts [] [Contact.mk "G" "nm" "12" "" "" "" none] none =
        .ok (menus, order2) ∧
      ((load_contacts menus).map
          (fun c => (c.group, c.name, c.office, c.mobile, c.other))).Perm
        ([Contact.mk "G" "nm" "12" "" "" "" none].map
          (fun c => (c.group, c.name, c.office, c.mobile, c.other))) ∧
      (load_contacts menus).map Contact.contact_id =
        (List.range ([Contact.mk "G" "nm" "12" "" "" "" none] : List Contact).length).map
          some) :=
  ⟨by decide, by decide, by decide,
    claim_C1_save_load_roundtrip [] [Contact.mk "G" "nm" "12" "" "" "" none]
      (by decide) (by decide) (by decide)⟩

/-! Contact mutations: `update_contact` and `delete_contact`. -/

theorem updateLoop_none : ∀ {l : List Contact} {cid : Nat} {upd : Contact},
    (∀ c ∈ l, c.contact_id ≠ some cid) → updateLoop l cid upd = none := by
  intro l
  induction l with
  | nil => intro cid upd _; rfl
  | cons c rest ih =>
    intro cid upd h
    rw [updateLoop, if_neg (h c (List.mem_cons_self c rest))]
    rw [ih (fun x hx => h x (List.mem_cons_of_mem _ hx))]
    rfl

theorem updateLoop_found : ∀ {s₁ : List Contact} {c : Contact} {s₂ : List Contact}
    {cid : Nat} {upd : Contact}, c.contact_id = some cid →
    (∀ x ∈ s₁, x.contact_id ≠ some cid) →
    updateLoop (s₁ ++ c :: s₂) cid upd =
      some (s₁ ++ { upd with contact_id := some cid } :: s₂) := by
  intro s₁
  induction s₁ with
  | nil =>
    intro c s₂ cid upd hc _
    rw [List.nil_append, updateLoop, if_pos hc, List.nil_append]
  | cons x rest ih =>
    intro c s₂ cid upd hc hs
    rw [List.cons_append, updateLoop, if_neg (hs x (List.mem_cons_self x rest)),
      ih hc (fun y hy => hs y (List.mem_cons_of_mem _ hy))]
    rfl

/-- C4 counterexample: with a snapshot holding only contact id 0,
`update_contact` on the unknown id 5 raises NotFound, but `delete_contact`
on the same unknown id silently succeeds, saving the unchanged contact. -/
theorem claim_C4_counterexample :
    update_contact [Contact.mk "G" "n" "1" "" "" "" (some 0)] 5
        (Contact.mk "G" "m" "1" "" "" "" none) = .error "Контакт не найден" ∧
    delete_contact [] [Contact.mk "G" "n" "1" "" "" "" (some 0)] 5 =
      .ok ([Menu.mk "01. G" [PhoneUnit.mk "n" "" "1" "" ""]], [("G", 1)]) := by
  refine ⟨by decide, by decide⟩

/-- C4 (amended): for an id absent from the freshly loaded snapshot,
`update_contact` raises NotFound, but `delete_contact` performs no id
check at all: the filter removes nothing and it simply saves the
unchanged snapshot. -/
theorem claim_C4_unknown_id (o : List (String × Int)) (snapshot : List Contact)
    (cid : Nat) (upd : Contact) (h : ∀ c ∈ snapshot, c.contact_id ≠ some cid) :
    update_contact snapshot cid upd = .error "Контакт не найден" ∧
    delete_contact o snapshot cid = save_contacts o snapshot none := by
  constructor
  · rw [update_contact, updateLoop_none h]
  · rw [delete_contact]
    have hf : snapshot.filter (fun c => decide (c.contact_id ≠ some cid)) = snapshot := by
      rw [List.filter_eq_self]
      intro c hc
      rw [decide_eq_true_eq]
      exact h c hc
    rw [hf]

/-- Witness for C4 (amended) at a concrete snapshot and id. -/
theorem claim_C4_unknown_id_witness :
    (∀ c ∈ [Contact.mk "G" "n" "1" "" "" "" (some 0)],
      c.contact_id ≠ some 5) ∧
    (update_contact [Contact.mk "G" "n" "1" "" "" "" (some 0)] 5
        (Contact.mk "G" "m" "1" "" "" "" none) = .error "Контакт не найден" ∧
      delete_contact [] [Contact.mk "G" "n" "1" "" "" "" (some 0)] 5 =
        save_contacts [] [Contact.mk "G" "n" "1" "" "" "" (some 0)] none) :=
  ⟨by decide, claim_C4_unknown_id [] [Contact.mk "G" "n" "1" "" "" "" (some 0)] 5
    (Contact.mk "G" "m" "1" "" "" "" none) (by decide)⟩

/-- C10: updating an existing contact id stores the updated contact under
that id (ignoring any id carried by the updated value) and leaves the
multiset of (group, name, office, mobile, other, photo) tuples of all
other contacts unchanged, provided the resulting list passes validation,
respects the group cap, and has clean group names. -/
theorem claim_C10_update_frame (o : List (String × Int)) (s₁ s₂ : List Contact)
    (c upd : Contact) (cid : Nat)
    (hc : c.contact_id = some cid) (hs₁ : ∀ x ∈ s₁, x.contact_id ≠ some cid)
    (hval : ∀ x ∈ s₁ ++ { upd with contact_id := some cid } :: s₂,
      _validate_lengths x = .ok ())
    (hcard : ((s₁ ++ { upd with contact_id := some cid } :: s₂).map
      Contact.group).toFinset.card ≤ MAX_GROUPS)
    (hclean : ∀ x ∈ s₁ ++ { upd with contact_id := some cid } :: s₂,
      cleanGroupName x.group = true) :
    update_contact (s₁ ++ c :: s₂) cid upd =
      .ok (s₁ ++ { upd with contact_id := some cid } :: s₂) ∧
    ∃ menus order2,
      save_contacts o (s₁ ++ { upd with contact_id := some cid } :: s₂) none =
        .ok (menus, order2) ∧
      ((load_contacts menus).map
          (fun x => (x.group, x.name, x.office, x.mobile, x.other, x.photo))).Perm
        ((upd.group, upd.name, upd.office, upd.mobile, upd.other, upd.photo) ::
          ((s₁ ++ s₂).map (fun x => (x.group, x.name, x.office, x.mobile, x.other, x.photo)))) := by
  constructor
  · rw [update_contact, updateLoop_found hc hs₁]
  · obtain ⟨gs, hb⟩ := bucketGroups_ok_of [] hval (by simp) (by simpa using hcard)
    have h6 := save_load_tup6 (o := o) hb hclean
    refine ⟨(saveWithBuckets o gs).1, (saveWithBuckets o gs).2, ?_, ?_⟩
    · rw [save_contacts_none_ok hb]
    · refine h6.trans ?_
      rw [List.map_append, List.map_cons, List.map_append]
      exact List.perm_middle

/-- Witness for C10 at a concrete two-contact snapshot. -/
theorem claim_C10_update_frame_witness :
    ((Contact.mk "G" "n" "1" "" "" "" (some 0)).contact_id = some 0) ∧
    (update_contact [Contact.mk "G" "n" "1" "" "" "" (some 0),
        Contact.mk "H" "m" "2" "" "" "" (some 1)] 0
        (Contact.mk "G" "x" "3" "" "" "" none) =
      .ok [Contact.mk "G" "x" "3" "" "" "" (some 0),
        Contact.mk "H" "m" "2" "" "" "" (some 1)]) := by
  have h := claim_C10_update_frame [] [] [Contact.mk "H" "m" "2" "" "" "" (some 1)]
    (Contact.mk "G" "n" "1" "" "" "" (some 0)) (Contact.mk "G" "x" "3" "" "" "" none) 0
    (by decide) (by decide) (by decide) (by decide) (by decide)
  exact ⟨by decide, h.1⟩

/-! Group cap and validation abort. -/

theorem addPreserved_cons_eq (gs : List (String × List Contact)) (g : String)
    (rest : List String) :
    addPreserved gs (g :: rest) =
      if (dictLookup gs g).isSome then addPreserved gs rest
      else if gs.length ≥ MAX_GROUPS then .error "Превышено число групп (50)"
      else addPreserved (gs ++ [(g, [])]) rest := rfl

theorem addPreserved_facts : ∀ {ps : List String} {gs gs2 : List (String × List Contact)},
    addPreserved gs ps = .ok gs2 →
    (gs2.map Prod.fst).toFinset = (gs.map Prod.fst).toFinset ∪ ps.toFinset ∧
    gs2.length ≤ max gs.length MAX_GROUPS := by
  intro ps
  induction ps with
  | nil =>
    intro gs gs2 h
    have hgg : gs = gs2 := by injection h
    subst hgg
    exact ⟨by simp, le_max_left _ _⟩
  | cons g rest ih =>
    intro gs gs2 h
    rw [addPreserved_cons_eq] at h
    split at h
    · rename_i hk
      obtain ⟨ihs, ihl⟩ := ih h
      have hmem : g ∈ (gs.map Prod.fst).toFinset :=
        List.mem_toFinset.mpr (dictLookup_isSome_iff.mp hk)
      refine ⟨?_, ihl⟩
      rw [ihs, List.toFinset_cons]
      ext x
      simp only [Finset.mem_union, Finset.mem_insert]
      constructor
      · rintro (hx | hx)
        · exact Or.inl hx
        · exact Or.inr (Or.inr hx)
      · rintro (hx | rfl | hx)
        · exact Or.inl hx
        · exact Or.inl hmem
        · exact Or.inr hx
    · split at h
      · exact Except.noConfusion h
      · rename_i hk hcap
        obtain ⟨ihs, ihl⟩ := ih h
        constructor
        · rw [ihs, List.map_append, List.toFinset_append, List.toFinset_cons]
          ext x
          simp only [Finset.mem_union, Finset.mem_insert, List.map_cons, List.map_nil,
            List.toFinset_cons, List.toFinset_nil, insert_emptyc_eq, Finset.mem_singleton]
          constructor
          · rintro ((hx | rfl) | hx)
            · exact Or.inl hx
            · exact Or.inr (Or.inl rfl)
            · exact Or.inr (Or.inr hx)
          · rintro (hx | rfl | hx)
            · exact Or.inl (Or.inl hx)
            · exact Or.inl (Or.inr rfl)
            · exact Or.inr hx
        · rw [List.length_append] at ihl
          simp only [List.length_singleton] at ihl
          have hlt : gs.length < MAX_GROUPS := by omega
          have h1 : max (gs.length + 1) MAX_GROUPS = MAX_GROUPS := Nat.max_eq_right (by omega)
          rw [h1] at ihl
          exact le_trans ihl (le_max_right _ _)

/-- If a save went through, the distinct groups (contacts plus preserved)
fit the cap. -/
theorem save_ok_group_card {o : List (String × Int)} {contacts : List Contact}
    {pres : Option (List String)} {x : List Menu × List (String × Int)}
    (h : save_contacts o contacts pres = .ok x) :
    (contacts.map Contact.group ++ pres.getD []).toFinset.card ≤ MAX_GROUPS := by
  obtain ⟨gs, gs2, hb, hp, _⟩ := save_contacts_ok_inv h
  have hkeys := bucketGroups_keys hb
  have hset : (gs.map Prod.fst).toFinset = (contacts.map Contact.group).toFinset := by
    have := hkeys.2.1
    simpa using this
  have hlen : gs.length ≤ MAX_GROUPS := by
    have := hkeys.2.2
    simpa using this
  have hmain : (gs2.map Prod.fst).toFinset =
      (contacts.map Contact.group).toFinset ∪ (pres.getD []).toFinset ∧
      gs2.length ≤ MAX_GROUPS := by
    cases pres with
    | none =>
      have hgg : gs = gs2 := by injection hp
      subst hgg
      refine ⟨by rw [hset]; simp, hlen⟩
    | some ps =>
      obtain ⟨hps, hpl⟩ := addPreserved_facts hp
      refine ⟨by rw [hps, hset]; rfl, ?_⟩
      refine le_trans hpl ?_
      rw [Nat.max_eq_right hlen]
  rw [List.toFinset_append, ← hmain.1]
  refine le_trans (List.toFinset_card_le _) ?_
  rw [List.length_map]
  exact hmain.2

/-- C5: an input spanning more than 50 distinct group names (contacts plus
preserved-but-empty groups) makes `save_contacts` raise before anything is
written: the store is unchanged and an error message is produced. -/
theorem claim_C5_group_cap (st : Store) (contacts : List Contact)
    (preserved : Option (List String))
    (h : MAX_GROUPS < (contacts.map Contact.group ++ preserved.getD []).toFinset.card) :
    (saveContactsStore st contacts preserved).1 = st ∧
    ∃ msg, (saveContactsStore st contacts preserved).2 = some msg := by
  cases hs : save_contacts st.group_order contacts preserved with
  | error e =>
    rw [saveContactsStore, hs]
    exact ⟨rfl, e, rfl⟩
  | ok x =>
    exact absurd (save_ok_group_card hs) (by omega)

/-- Witness for C5: 51 one-contact groups (g00..g50) overflow the cap. -/
theorem claim_C5_group_cap_witness :
    (MAX_GROUPS < ((((List.range 51).map
        (fun i => Contact.mk (String.mk ('g' :: Nat.toDigits 10 i)) "n" "1" "" "" "" none)).map
        Contact.group ++ (none : Option (List String)).getD []).toFinset.card)) ∧
    ((saveContactsStore (Store.mk [] []) ((List.range 51).map
        (fun i => Contact.mk (String.mk ('g' :: Nat.toDigits 10 i)) "n" "1" "" "" "" none))
        none).1 = Store.mk [] [] ∧
      ∃ msg, ((saveContactsStore (Store.mk [] []) ((List.range 51).map
        (fun i => Contact.mk (String.mk ('g' :: Nat.toDigits 10 i)) "n" "1" "" "" "" none))
        none).2 = some msg)) :=
  ⟨by decide, claim_C5_group_cap (Store.mk [] []) _ none (by decide)⟩

/-- C6: `_validate_lengths` accepts exactly non-empty group/name of at most
99 characters, numbers of at most 32, photo of at most 99 (so a
99-character name passes and a 100-character one is rejected), and any
validation failure in the list aborts `save_contacts` before anything is
written. -/
theorem claim_C6_validation (st : Store) (contacts : List Contact)
    (preserved : Option (List String)) :
    (∀ c : Contact, _validate_lengths c = .ok () ↔
      (1 ≤ c.group.length ∧ c.group.length ≤ 99 ∧ 1 ≤ c.name.length ∧
        c.name.length ≤ 99 ∧ c.office.length ≤ 32 ∧ c.mobile.length ≤ 32 ∧
        c.other.length ≤ 32 ∧ c.photo.length ≤ 99))
    ∧ _validate_lengths (Contact.mk "G" (String.mk (List.replicate 99 'a')) "" "" "" "" none)
        = .ok ()
    ∧ _validate_lengths (Contact.mk "G" (String.mk (List.replicate 100 'a')) "" "" "" "" none)
        = .error "Имя слишком длинное (макс 99)"
    ∧ ((∃ c ∈ contacts, _validate_lengths c ≠ .ok ()) →
        (saveContactsStore st contacts preserved).1 = st ∧
        ∃ msg, (saveContactsStore st contacts preserved).2 = some msg) := by
  refine ⟨?_, by decide, by decide, ?_⟩
  · intro c
    simp only [_validate_lengths, MAX_NAME_LENGTH, MAX_PHONE_LENGTH]
    split_ifs with h1 h2 h3 h4 h5 h6 h7 h8 <;>
      constructor <;> intro hx
    · exact hx.elim
    · omega
    · exact hx.elim
    · omega
    · exact hx.elim
    · omega
    · exact hx.elim
    · omega
    · exact hx.elim
    · omega
    · exact hx.elim
    · omega
    · exact hx.elim
    · omega
    · exact hx.elim
    · omega
    · omega
    · rfl
  · intro hex
    cases hs : save_contacts st.group_order contacts preserved with
    | error e =>
      rw [saveContactsStore, hs]
      exact ⟨rfl, e, rfl⟩
    | ok x =>
      exfalso
      obtain ⟨c, hc, hcv⟩ := hex
      obtain ⟨gs, gs2, hb, _, _⟩ := save_contacts_ok_inv hs
      exact hcv (bucketGroups_valid hb c hc)

/-- Witness for C6: an empty-name contact aborts the save, leaving the
store unchanged. -/
theorem claim_C6_validation_witness :
    (∃ c ∈ [Contact.mk "G" "" "1" "" "" "" none], _validate_lengths c ≠ .ok ()) ∧
    ((saveContactsStore (Store.mk [] []) [Contact.mk "G" "" "1" "" "" "" none] none).1 =
        Store.mk [] [] ∧
      ∃ msg, (saveContactsStore (Store.mk [] [])
        [Contact.mk "G" "" "1" "" "" "" none] none).2 = some msg) :=
  ⟨by decide, (claim_C6_validation (Store.mk [] [])
    [Contact.mk "G" "" "1" "" "" "" none] none).2.2.2 (by decide)⟩

/-! Extension extraction (`excel_io.extract_internal_extension_from_row`). -/

/-- C8: the dedicated column wins whenever its non-digit-stripped content
is a 3–5 digit run; otherwise the row fields are scanned for the first
phone-like run whose digits form a 3–5 digit string; concrete instances
from the spec: dedicated "307" beats a field holding "12345",
"tel. 45-12" yields "4512" via the fallback scan, and a lone "12" (two
digits) yields nothing. -/
theorem claim_C8_extension_extraction :
    (∀ (raw : String) (rows : List String), 3 ≤ (cleanupDigits raw).length →
      (cleanupDigits raw).length ≤ 5 →
      extract_internal_extension_from_row raw rows = some (String.mk (cleanupDigits raw)))
    ∧ (∀ (raw : String) (rows : List String),
      ¬ (3 ≤ (cleanupDigits raw).length ∧ (cleanupDigits raw).length ≤ 5) →
      extract_internal_extension_from_row raw rows = scanRowValues rows)
    ∧ extract_internal_extension_from_row "307" ["12345", "ext: 307, other text"] = some "307"
    ∧ extract_internal_extension_from_row "" ["tel. 45-12"] = some "4512"
    ∧ extract_internal_extension_from_row "" ["12"] = none := by
  refine ⟨?_, ?_, by decide, by decide, by decide⟩
  · intro raw rows h3 h5
    have hne : ¬ (raw = "") := by
      intro he
      subst he
      simp [cleanupDigits] at h3
    have hd : dedicatedExtension raw = some (String.mk (cleanupDigits raw)) := by
      rw [dedicatedExtension, if_neg hne, if_pos ⟨h3, h5⟩]
    rw [extract_internal_extension_from_row, hd]
  · intro raw rows hno
    have hd : dedicatedExtension raw = none := by
      rw [dedicatedExtension]
      by_cases he : raw = ""
      · rw [if_pos he]
      · rw [if_neg he, if_neg hno]
    rw [extract_internal_extension_from_row, hd]

/-- Witness for C8 at concrete dedicated-column values. -/
theorem claim_C8_extension_extraction_witness :
    (3 ≤ (cleanupDigits "a1b2c3").length ∧ (cleanupDigits "a1b2c3").length ≤ 5 ∧
      extract_internal_extension_from_row "a1b2c3" ["999999"] = some "123") ∧
    (¬ (3 ≤ (cleanupDigits "12").length ∧ (cleanupDigits "12").length ≤ 5) ∧
      extract_internal_extension_from_row "12" ["4512"] = scanRowValues ["4512"]) :=
  ⟨⟨by decide, by decide,
    (claim_C8_extension_extraction).1 "a1b2c3" ["999999"] (by decide) (by decide)⟩,
   ⟨by decide,
    (claim_C8_extension_extraction).2.1 "12" ["4512"] (by decide)⟩⟩

/-! Import normalization (`excel_io.normalize_raw_contacts`). -/

theorem firstSeenAux_append (acc xs ys : List String) :
    firstSeenAux acc (xs ++ ys) = firstSeenAux (firstSeenAux acc xs) ys := by
  induction xs generalizing acc with
  | nil => rfl
  | cons x rest ih =>
    rw [List.cons_append]
    simp only [firstSeenAux]
    by_cases h : x ∈ acc
    · rw [if_pos h, if_pos h, ih]
    · rw [if_neg h, if_neg h, ih]

theorem mem_firstSeenAux {x : String} : ∀ {l acc : List String},
    x ∈ firstSeenAux acc l ↔ x ∈ acc ∨ x ∈ l := by
  intro l
  induction l with
  | nil => intro acc; simp [firstSeenAux]
  | cons y rest ih =>
    intro acc
    simp only [firstSeenAux]
    by_cases h : y ∈ acc
    · rw [if_pos h, ih]
      constructor
      · rintro (hx | hx)
        · exact Or.inl hx
        · exact Or.inr (List.mem_cons_of_mem _ hx)
      · rintro (hx | hx)
        · exact Or.inl hx
        · rcases List.mem_cons.mp hx with rfl | hx2
          · exact Or.inl h
          · exact Or.inr hx2
    · rw [if_neg h, ih]
      simp only [List.mem_append, List.mem_singleton, List.mem_cons]
      tauto

theorem firstSeenAux_nodup : ∀ {l acc : List String}, acc.Nodup →
    (firstSeenAux acc l).Nodup := by
  intro l
  induction l with
  | nil => intro acc h; exact h
  | cons y rest ih =>
    intro acc h
    simp only [firstSeenAux]
    by_cases hy : y ∈ acc
    · rw [if_pos hy]
      exact ih h
    · rw [if_neg hy]
      refine ih ?_
      rw [List.nodup_append]
      refine ⟨h, List.nodup_singleton _, ?_⟩
      intro a ha hb
      rw [List.mem_singleton] at hb
      subst hb
      exact hy ha

theorem addToGroup_not_mem {gs : List (String × List Contact)} {k : String} {c : Contact}
    (h : k ∉ gs.map Prod.fst) : addToGroup gs k c = gs ++ [(k, [c])] := by
  induction gs with
  | nil => rfl
  | cons p rest ih =>
    have hp : p.1 ≠ k := by
      intro he
      exact h (by rw [List.map_cons, he]; exact List.mem_cons_self _ _)
    have h2 : k ∉ rest.map Prod.fst := fun hm =>
      h (by rw [List.map_cons]; exact List.mem_cons_of_mem _ hm)
    rw [addToGroup, if_neg hp, ih h2, List.cons_append]

theorem addToGroup_map_update {names : List String} {F : String → List Contact}
    {k : String} {c : Contact} (hmem : k ∈ names) (hnd : names.Nodup) :
    addToGroup (names.map (fun g => (g, F g))) k c =
      names.map (fun g => (g, if g = k then F g ++ [c] else F g)) := by
  induction names with
  | nil => simp at hmem
  | cons n rest ih =>
    rw [List.nodup_cons] at hnd
    rw [List.map_cons, List.map_cons]
    by_cases hnk : n = k
    · subst hnk
      rw [addToGroup, if_pos rfl, if_pos rfl]
      congr 1
      apply List.map_congr_left
      intro g hg
      have hgk : g ≠ n := fun he => hnd.1 (he ▸ hg)
      rw [if_neg hgk]
    · rw [addToGroup, if_neg hnk, if_neg hnk]
      have hmem2 : k ∈ rest := by
        rcases List.mem_cons.mp hmem with rfl | h2
        · exact absurd rfl hnk
        · exact h2
      rw [ih hmem2 hnd.2]

theorem buildGrouped_eq_fold (am : List (String × String)) :
    ∀ (raws : List RawContact) (acc : List (String × List Contact)),
    buildGrouped am raws acc =
      (survivorContacts raws am).foldl (fun a c => addToGroup a c.group c) acc := by
  intro raws
  induction raws with
  | nil => intro acc; rfl
  | cons raw rest ih =>
    intro acc
    rw [survivorContacts, List.map_cons, List.filter_cons]
    show (if hasUsableNumber (toContact am raw) then
        buildGrouped am rest (addToGroup acc (toContact am raw).group (toContact am raw))
      else buildGrouped am rest acc) = _
    by_cases h : hasUsableNumber (toContact am raw)
    · rw [if_pos h, if_pos h, List.foldl_cons, ih]
      rfl
    · rw [if_neg h, if_neg h, ih]
      rfl

theorem foldl_addToGroup_groups (l : List Contact) :
    l.foldl (fun a c => addToGroup a c.group c) [] =
      (firstSeen (l.map Contact.group)).map
        (fun g => (g, l.filter (fun c => c.group == g))) := by
  induction l using List.reverseRecOn with
  | nil => rfl
  | append_singleton l c ih =>
    rw [List.foldl_append, List.foldl_cons, List.foldl_nil, ih]
    have hmap : (l ++ [c]).map Contact.group = l.map Contact.group ++ [c.group] := by simp
    have hnd : (firstSeen (l.map Contact.group)).Nodup :=
      firstSeenAux_nodup List.nodup_nil
    by_cases hmem : c.group ∈ l.map Contact.group
    · have hmem2 : c.group ∈ firstSeen (l.map Contact.group) :=
        mem_firstSeenAux.mpr (Or.inr hmem)
      have hfs2 : firstSeen ((l ++ [c]).map Contact.group) =
          firstSeen (l.map Contact.group) := by
        rw [firstSeen, hmap, firstSeenAux_append]
        show firstSeenAux (firstSeen (l.map Contact.group)) [c.group] = _
        simp only [firstSeenAux]
        rw [if_pos hmem2]
      rw [hfs2, addToGroup_map_update hmem2 hnd]
      apply List.map_congr_left
      intro g hg
      rw [List.filter_append, List.filter_cons]
      by_cases hgk : g = c.group
      · subst hgk
        rw [if_pos rfl, if_pos (by simp)]
        rfl
      · have : ¬ ((c.group == g) = true) := by
          rw [beq_iff_eq]
          exact fun he => hgk he.symm
        rw [if_neg hgk, if_neg this, List.filter_nil, List.append_nil]
    · have hmem2 : c.group ∉ firstSeen (l.map Contact.group) := by
        rw [firstSeen, mem_firstSeenAux]
        rintro (h2 | h2)
        · exact absurd h2 (List.not_mem_nil _)
        · exact hmem h2
      have hfs2 : firstSeen ((l ++ [c]).map Contact.group) =
          firstSeen (l.map Contact.group) ++ [c.group] := by
        rw [firstSeen, hmap, firstSeenAux_append]
        show firstSeenAux (firstSeen (l.map Contact.group)) [c.group] = _
        simp only [firstSeenAux]
        rw [if_neg hmem2]
      have hfsts : ((firstSeen (l.map Contact.group)).map
          (fun g => (g, l.filter (fun c2 => c2.group == g)))).map Prod.fst =
          firstSeen (l.map Contact.group) := by
        rw [List.map_map]
        exact List.map_id _
      have hnotin : c.group ∉ ((firstSeen (l.map Contact.group)).map
          (fun g => (g, l.filter (fun c2 => c2.group == g)))).map Prod.fst := by
        rw [hfsts]
        exact hmem2
      rw [addToGroup_not_mem hnotin, hfs2, List.map_append]
      congr 1
      · apply List.map_congr_left
        intro g hg
        rw [List.filter_append, List.filter_cons]
        have hgk : ¬ ((c.group == g) = true) := by
          rw [beq_iff_eq]
          intro he
          exact hmem2 (he ▸ hg)
        rw [if_neg hgk, List.filter_nil, List.append_nil]
      · rw [List.map_singleton, List.filter_append, List.filter_cons,
          if_pos (by simp)]
        have hfil : l.filter (fun c2 => c2.group == c.group) = [] := by
          rw [List.filter_eq_nil_iff]
          intro x hx
          rw [beq_iff_eq]
          intro he
          exact hmem (he ▸ List.mem_map.mpr ⟨x, hx, rfl⟩)
        rw [hfil]
        rfl

theorem flatMap_filter_groups_perm : ∀ (names : List String) (l : List Contact),
    names.Nodup → (∀ c ∈ l, c.group ∈ names) →
    (names.flatMap (fun g => l.filter (fun c => c.group == g))).Perm l := by
  intro names
  induction names with
  | nil =>
    intro l _ hcov
    have hl : l = [] := by
      cases l with
      | nil => rfl
      | cons c cs => exact absurd (hcov c (List.mem_cons_self _ _)) (List.not_mem_nil _)
    subst hl
    rfl
  | cons n ns ih =>
    intro l hnd hcov
    rw [List.nodup_cons] at hnd
    rw [List.flatMap_cons]
    have hrest : ns.flatMap (fun g => l.filter (fun c => c.group == g)) =
        ns.flatMap (fun g =>
          (l.filter (fun c => !(c.group == n))).filter (fun c => c.group == g)) := by
      apply List.flatMap_congr
      intro g hg
      rw [List.filter_filter]
      apply List.filter_congr
      intro c hc
      by_cases hcg : c.group = g
      · have h1 : (c.group == g) = true := beq_iff_eq.mpr hcg
        have h2 : (c.group == n) = false := by
          rw [beq_eq_false_iff_ne]
          intro he
          exact hnd.1 (he ▸ hcg ▸ hg)
        rw [h1, h2]
        rfl
      · have h1 : (c.group == g) = false := by
          rw [beq_eq_false_iff_ne]
          exact hcg
        rw [h1, Bool.false_and]
    rw [hrest]
    have hcov2 : ∀ c ∈ l.filter (fun c => !(c.group == n)), c.group ∈ ns := by
      intro c hc
      rw [List.mem_filter] at hc
      rcases List.mem_cons.mp (hcov c hc.1) with he | hmem
      · rw [Bool.not_eq_eq_eq_not, Bool.not_true, beq_eq_false_iff_ne] at hc
        exact absurd he hc.2
      · exact hmem
    have h1 := ih (l.filter (fun c => !(c.group == n))) hnd.2 hcov2
    exact (h1.append_left (l.filter (fun c => c.group == n))).trans
      (List.filter_append_perm (fun c => c.group == n) l)

theorem survivor_group_cover (raws : List RawContact) (am : List (String × String)) :
    ∀ c ∈ survivorContacts raws am,
      c.group ∈ firstSeen ((survivorContacts raws am).map Contact.group) := by
  intro c hc
  rw [firstSeen]
  exact mem_firstSeenAux.mpr (Or.inr (List.mem_map.mpr ⟨c, hc, rfl⟩))

/-- **C9.** `normalize_raw_contacts` maps each raw record to a contact whose
group is the alias-resolved department (falling back to the raw name),
whose office is the extracted extension (or empty) and whose
mobile/other/photo are empty (`toContact`), drops the contacts with no
usable number (`survivorContacts`), and returns the survivors grouped by
canonical department in first-seen order with each group sorted
case-insensitively by name: the result is exactly the concatenation, over
the first-seen group names, of the case-insensitive name-sort of each
group's survivors; in particular it is a permutation of the survivors, and
every returned contact has empty mobile, other and photo. -/
theorem claim_C9_normalize (raws : List RawContact) (am : List (String × String)) :
    normalize_raw_contacts raws am =
      (firstSeen ((survivorContacts raws am).map Contact.group)).flatMap
        (fun g => pySort leNameCI ((survivorContacts raws am).filter
          (fun c => c.group == g)))
    ∧ (normalize_raw_contacts raws am).Perm (survivorContacts raws am)
    ∧ (normalize_raw_contacts raws am).all
        (fun c => c.mobile == "" && c.other == "" && c.photo == "") = true := by
  have hfold : buildGrouped am raws [] =
      (firstSeen ((survivorContacts raws am).map Contact.group)).map
        (fun g => (g, (survivorContacts raws am).filter (fun c => c.group == g))) := by
    rw [buildGrouped_eq_fold, foldl_addToGroup_groups]
  have heq : normalize_raw_contacts raws am =
      (firstSeen ((survivorContacts raws am).map Contact.group)).flatMap
        (fun g => pySort leNameCI ((survivorContacts raws am).filter
          (fun c => c.group == g))) := by
    rw [normalize_raw_contacts, hfold, List.flatMap_map]
  refine ⟨heq, ?_, ?_⟩
  · rw [heq]
    have hstep : ((firstSeen ((survivorContacts raws am).map Contact.group)).flatMap
        (fun g => pySort leNameCI ((survivorContacts raws am).filter
          (fun c => c.group == g)))).Perm
        ((firstSeen ((survivorContacts raws am).map Contact.group)).flatMap
        (fun g => (survivorContacts raws am).filter (fun c => c.group == g))) := by
      apply List.Perm.flatMap_left
      intro g hg
      exact pySort_perm _ _
    exact hstep.trans (flatMap_filter_groups_perm _ _
      (firstSeenAux_nodup List.nodup_nil) (survivor_group_cover raws am))
  · rw [List.all_eq_true]
    intro c hc
    have hperm : (normalize_raw_contacts raws am).Perm (survivorContacts raws am) := by
      rw [heq]
      have hstep : ((firstSeen ((survivorContacts raws am).map Contact.group)).flatMap
          (fun g => pySort leNameCI ((survivorContacts raws am).filter
            (fun c => c.group == g)))).Perm
          ((firstSeen ((survivorContacts raws am).map Contact.group)).flatMap
          (fun g => (survivorContacts raws am).filter (fun c => c.group == g))) := by
        apply List.Perm.flatMap_left
        intro g hg
        exact pySort_perm _ _
      exact hstep.trans (flatMap_filter_groups_perm _ _
        (firstSeenAux_nodup List.nodup_nil) (survivor_group_cover raws am))
    have hc2 : c ∈ survivorContacts raws am := hperm.mem_iff.mp hc
    rw [survivorContacts, List.mem_filter, List.mem_map] at hc2
    rcases hc2.1 with ⟨raw, hraw, hcraw⟩
    subst hcraw
    rfl

end Phonebook
